import Mathlib

/-!
Verification development for the OTPilot code-extraction core
(src/services/otp-extractor.js and src/utils/validators.js).

JavaScript strings are modelled as Lean String / List Char; absent or
non-string values are modelled as the none case of Option String.
JavaScript regular-expression operations are modelled either by direct
deterministic recursions (for the replace pipelines, whose patterns are
deterministic) or by a small backtracking engine that mirrors the JS
leftmost-match / greedy / lazy semantics.  Character case mapping is the
ASCII mapping of Char.toUpper / Char.toLower, which agrees with the JS
toUpperCase / toLowerCase on every character the pipeline can emit.
-/

set_option maxHeartbeats 1600000

namespace OTPilot

/-- The JS whitespace class backslash-s (space, tab, LF, VT, FF, CR, NBSP,
BOM and the Unicode space separators). -/
def jsWs (c : Char) : Bool :=
  c = ' ' || c = '\t' || c = '\n' || c = '\r' ||
  c = (Char.ofNat 0x0B) || c = (Char.ofNat 0x0C) ||
  c = (Char.ofNat 0xA0) || c = (Char.ofNat 0xFEFF) ||
  c = (Char.ofNat 0x1680) ||
  ((Char.ofNat 0x2000) ≤ c && c ≤ (Char.ofNat 0x200A)) ||
  c = (Char.ofNat 0x2028) || c = (Char.ofNat 0x2029) ||
  c = (Char.ofNat 0x202F) || c = (Char.ofNat 0x205F) ||
  c = (Char.ofNat 0x3000)

/-- Does the list start with the given pattern?  (List-level prefix test.) -/
def leadMatch : List Char → List Char → Bool
  | [], _ => true
  | _ :: _, [] => false
  | p :: ps, c :: cs => p = c && leadMatch ps cs

/-- Does `text` contain `pat` as a contiguous substring?
Models the JS String.prototype.includes. -/
def hasSub (pat : List Char) : List Char → Bool
  | [] => leadMatch pat []
  | c :: cs => leadMatch pat (c :: cs) || hasSub pat cs

/-- First index at which `pat` occurs in `text` (JS String.prototype.indexOf). -/
def indexOfSub (pat : List Char) : List Char → Option Nat
  | [] => if leadMatch pat [] then some 0 else none
  | c :: cs =>
    if leadMatch pat (c :: cs) then some 0
    else (indexOfSub pat cs).map (fun n => n + 1)

/-- The character class [A-Z0-9] of the validator's alphanumeric rule. -/
def upperAlnum (c : Char) : Bool :=
  ('A' ≤ c && c ≤ 'Z') || c.isDigit

/-!  ## Validator (src/utils/validators.js) -/

/-- Sequential digit patterns to reject (SEQUENTIAL_PATTERNS). -/
def SEQUENTIAL_PATTERNS : List (List Char) :=
  ["0123".data, "1234".data, "2345".data, "3456".data, "4567".data,
   "5678".data, "6789".data,
   "9876".data, "8765".data, "7654".data, "6543".data, "5432".data,
   "4321".data, "3210".data,
   "012345".data, "123456".data, "234567".data, "345678".data,
   "456789".data,
   "987654".data, "876543".data, "765432".data, "654321".data,
   "543210".data]

/-- Does the code contain one of the sequential patterns as a substring?
(code.includes(pattern) over SEQUENTIAL_PATTERNS). -/
def isSequential (code : List Char) : Bool :=
  SEQUENTIAL_PATTERNS.any (fun pat => hasSub pat code)

/-- Is the code one character repeated over its whole length, with length
at least 2?  Models the test of the anchored regex (.)(backref)+ . -/
def isRepetitive (code : List Char) : Bool :=
  match code with
  | [] => false
  | [_] => false
  | c :: rest => rest.all (fun d => d = c)

/-- Month group of the date regexes: 01-12. -/
def monthOK (x y : Char) : Bool :=
  (x = '0' && '1' ≤ y && y ≤ '9') || (x = '1' && '0' ≤ y && y ≤ '2')

/-- Day group of the date regexes: 01-31. -/
def dayOK (x y : Char) : Bool :=
  (x = '0' && '1' ≤ y && y ≤ '9') ||
  ((x = '1' || x = '2') && y.isDigit) ||
  (x = '3' && (y = '0' || y = '1'))

/-- Two arbitrary digits in the date regexes. -/
def yy (x y : Char) : Bool := x.isDigit && y.isDigit

/-- Century group (19|20) of the 8-digit date regexes. -/
def centuryOK (x y : Char) : Bool :=
  (x = '1' && y = '9') || (x = '2' && y = '0')

/-- Does a 6- or 8-character code match one of the six anchored date
regexes (MMDDYY, DDMMYY, YYMMDD, MMDDYYYY, DDMMYYYY, YYYYMMDD)? -/
def isDatePattern (code : List Char) : Bool :=
  match code with
  | [a, b, c, d, e, f] =>
    (monthOK a b && dayOK c d && yy e f) ||
    (dayOK a b && monthOK c d && yy e f) ||
    (yy a b && monthOK c d && dayOK e f)
  | [a, b, c, d, e, f, g, h] =>
    (monthOK a b && dayOK c d && centuryOK e f && yy g h) ||
    (dayOK a b && monthOK c d && centuryOK e f && yy g h) ||
    (centuryOK a b && yy c d && monthOK e f && dayOK g h)
  | _ => false

/-- Decimal value of a digit list. -/
def digitsVal (l : List Char) : Nat :=
  l.foldl (fun a c => a * 10 + (c.toNat - 48)) 0

/-- parseInt(code, 10) in the cases reachable here: the value of the
leading run of digits, none when the code starts with no digit (NaN). -/
def jsParseInt (code : List Char) : Option Nat :=
  match code.takeWhile Char.isDigit with
  | [] => none
  | ds => some (digitsVal ds)

/-- Is the code a 4-character number between 1900 and 2100? -/
def isYearPattern (code : List Char) : Bool :=
  if code.length ≠ 4 then false
  else
    match jsParseInt code with
    | none => false
    | some n => 1900 ≤ n && n ≤ 2100

/-- Is the code entirely the digit 0 (anchored 0+ regex)? -/
def isAllZeros (code : List Char) : Bool :=
  !code.isEmpty && code.all (fun c => c = '0')

/-- The CSS length unit suffixes, uppercase forms. -/
def cssUnits : List (List Char) :=
  ["PX".data, "EM".data, "REM".data, "PT".data, "VH".data, "VW".data,
   "CH".data, "EX".data, "CM".data, "MM".data, "IN".data, "PC".data]

/-- Does the code match digits followed by a CSS unit suffix
(anchored, case-insensitive)? -/
def isCSSValue (code : List Char) : Bool :=
  let ds := code.takeWhile Char.isDigit
  let rest := code.dropWhile Char.isDigit
  !ds.isEmpty && cssUnits.any (fun u => (rest.map Char.toUpper) = u)

/-- The fixed list of common web colors. -/
def commonColors : List (List Char) :=
  ["000000".data, "FFFFFF".data, "333333".data, "666666".data,
   "999999".data, "CCCCCC".data,
   "FF0000".data, "00FF00".data, "0000FF".data, "FFFF00".data,
   "FF00FF".data, "00FFFF".data,
   "808080".data, "C0C0C0".data, "800000".data, "008000".data,
   "000080".data, "800080".data]

/-- Hex digit class [0-9A-F], case-insensitive. -/
def hexDigit (c : Char) : Bool :=
  c.isDigit || ('A' ≤ c && c ≤ 'F') || ('a' ≤ c && c ≤ 'f')

/-- Does a 6-character hex-only code look like a color: a two-character
group repeated three times, the (equivalent) grayscale shape, or a member
of the common color list?  Backreference comparison is case-insensitive,
as under the JS i flag. -/
def isLikelyColorCode (code : List Char) : Bool :=
  match code with
  | [a, b, c, d, e, f] =>
    if !(hexDigit a && hexDigit b && hexDigit c && hexDigit d &&
         hexDigit e && hexDigit f) then false
    else
      (c.toUpper = a.toUpper && d.toUpper = b.toUpper &&
       e.toUpper = a.toUpper && f.toUpper = b.toUpper) ||
      (c.toUpper = a.toUpper && d.toUpper = b.toUpper &&
       e.toUpper = a.toUpper && f.toUpper = b.toUpper) ||
      commonColors.any (fun w => [a, b, c, d, e, f].map Char.toUpper = w)
  | _ => false

/-- Does the code have a proper alphanumeric mix: if it has letters it
must also have digits. -/
def isValidAlphanumeric (code : List Char) : Bool :=
  let hasLetters := code.any Char.isAlpha
  let hasNumbers := code.any Char.isDigit
  !(hasLetters && !hasNumbers)

/-- The cleaning step of the validator: strip dashes and whitespace, then
uppercase (code.replace over [-backslash-s] then toUpperCase). -/
def cleanOTP (code : List Char) : List Char :=
  (code.filter (fun c => !(c = '-' || jsWs c))).map Char.toUpper

/-- All-digit test, the anchored digit+ regex guarding the date and year
rules. -/
def allDigits (code : List Char) : Bool :=
  !code.isEmpty && code.all Char.isDigit

/-- [A-Z0-9]+ anchored test. -/
def isAlnumAZ09 (code : List Char) : Bool :=
  !code.isEmpty && code.all upperAlnum

/-- isValidOTP on a definitely-string argument (the falsy check reduces to
the empty-string case). -/
def isValidOTPL (code : List Char) : Bool :=
  if code.isEmpty then false
  else
    let cleaned := cleanOTP code
    if cleaned.length < 4 || cleaned.length > 8 then false
    else if !isAlnumAZ09 cleaned then false
    else if isAllZeros cleaned then false
    else if isSequential cleaned then false
    else if isRepetitive cleaned then false
    else if allDigits cleaned && isDatePattern cleaned then false
    else if allDigits cleaned && isYearPattern cleaned then false
    else if !isValidAlphanumeric cleaned then false
    else if isCSSValue cleaned then false
    else if isLikelyColorCode cleaned then false
    else true

/-- isValidOTP; the none case covers null/undefined/non-string arguments. -/
def isValidOTP : Option String → Bool
  | none => false
  | some s => isValidOTPL s.data

/-- getValidationFailureReason; none means valid. -/
def getValidationFailureReason : Option String → Option String
  | none => some "Invalid input"
  | some s =>
    if s.data.isEmpty then some "Invalid input"
    else
      let cleaned := cleanOTP s.data
      if cleaned.length < 4 then some "Too short (min 4 chars)"
      else if cleaned.length > 8 then some "Too long (max 8 chars)"
      else if !isAlnumAZ09 cleaned then some "Not alphanumeric"
      else if isAllZeros cleaned then some "All zeros"
      else if isSequential cleaned then some "Sequential pattern"
      else if isRepetitive cleaned then some "Repetitive pattern"
      else if allDigits cleaned && isDatePattern cleaned then
        some "Date pattern"
      else if allDigits cleaned && isYearPattern cleaned then
        some "Year pattern"
      else if !isValidAlphanumeric cleaned then
        some "Invalid alphanumeric mix"
      else if isCSSValue cleaned then some "CSS value"
      else if isLikelyColorCode cleaned then some "Likely color code"
      else none

/-- Modelled from the spec: the shared, ordered chain of validation rules
(section 4.5 of the specification), each with the name the diagnostic
entry point reports and the predicate an input must pass.  The leading
input-validity rule is the guard both entry points apply before the
chain. -/
def validationRules : List (String × (Option String → Bool)) :=
  [("Invalid input", fun c =>
      match c with
      | none => false
      | some s => !s.data.isEmpty),
   ("Too short (min 4 chars)", fun c =>
      match c with
      | none => true
      | some s => 4 ≤ (cleanOTP s.data).length),
   ("Too long (max 8 chars)", fun c =>
      match c with
      | none => true
      | some s => (cleanOTP s.data).length ≤ 8),
   ("Not alphanumeric", fun c =>
      match c with
      | none => true
      | some s => isAlnumAZ09 (cleanOTP s.data)),
   ("All zeros", fun c =>
      match c with
      | none => true
      | some s => !isAllZeros (cleanOTP s.data)),
   ("Sequential pattern", fun c =>
      match c with
      | none => true
      | some s => !isSequential (cleanOTP s.data)),
   ("Repetitive pattern", fun c =>
      match c with
      | none => true
      | some s => !isRepetitive (cleanOTP s.data)),
   ("Date pattern", fun c =>
      match c with
      | none => true
      | some s => !(allDigits (cleanOTP s.data) &&
                    isDatePattern (cleanOTP s.data))),
   ("Year pattern", fun c =>
      match c with
      | none => true
      | some s => !(allDigits (cleanOTP s.data) &&
                    isYearPattern (cleanOTP s.data))),
   ("Invalid alphanumeric mix", fun c =>
      match c with
      | none => true
      | some s => isValidAlphanumeric (cleanOTP s.data)),
   ("CSS value", fun c =>
      match c with
      | none => true
      | some s => !isCSSValue (cleanOTP s.data)),
   ("Likely color code", fun c =>
      match c with
      | none => true
      | some s => !isLikelyColorCode (cleanOTP s.data))]

/-- Modelled from the spec: the name of the first rule in the shared
order whose check the input fails, none when every rule passes. -/
def firstFailingRule (code : Option String) : Option String :=
  (validationRules.find? (fun r => !(r.2 code))).map Prod.fst

/-!  ## Text normalizer (cleanText in src/services/otp-extractor.js)

Each global regex replacement of cleanText is deterministic (no
backtracking can change the matched extent), so each is modelled by a
direct left-to-right recursion that mirrors the JS scan: at each
position, attempt the pattern; on success emit the replacement and
continue after the match, otherwise emit the character and move on. -/

/-- Global replacement of HTML tags by a space.  The tag pattern is '<',
an optional slash, one or more non-'>' characters, then '>' or end of
input; both readings of the optional slash end at the same place, so the
match extent is the maximal run of non-'>' characters plus the closing
'>' when present.  The pattern cannot match at a '<' that is the last
character or is followed immediately by '>'. -/
def stripTags (l : List Char) : List Char :=
  match l with
  | [] => []
  | '<' :: rest =>
    match rest with
    | [] => ['<']
    | c2 :: t2 =>
      if c2 = '>' then '<' :: stripTags (c2 :: t2)
      else
        match hdw : (c2 :: t2).dropWhile (fun d => !(d = '>')) with
        | [] => ' ' :: stripTags []
        | _ :: r => ' ' :: stripTags r
  | c :: rest => c :: stripTags rest
termination_by l.length
decreasing_by
  · simp
  · simp
  · have hs := (List.dropWhile_sublist (l := c :: cs)
      (fun d => !(d = '>'))).length_le
    rw [hdw] at hs
    simp at hs ⊢
    omega
  · simp

/-- Case-insensitive test for the literal entity at the head of the
text. -/
def matchesNbsp (l : List Char) : Bool :=
  leadMatch "&nbsp;".data (l.take 6 |>.map Char.toLower)

/-- Global case-insensitive replacement of the non-breaking-space entity
by a space. -/
def stripNbsp (l : List Char) : List Char :=
  match l with
  | [] => []
  | c :: rest =>
    if matchesNbsp (c :: rest) then ' ' :: stripNbsp (rest.drop 5)
    else c :: stripNbsp rest
termination_by l.length
decreasing_by
  · simp [List.length_drop]
    omega
  · simp

/-- Global replacement of numeric HTML entities (ampersand, hash, one or
more digits, semicolon) by a space.  The digit run is maximal and the
semicolon must follow it, exactly as the regex matches. -/
def stripEnt (l : List Char) : List Char :=
  match l with
  | '&' :: '#' :: rest =>
    if (rest.takeWhile Char.isDigit).isEmpty then '&' :: stripEnt ('#' :: rest)
    else
      match hdw : rest.dropWhile Char.isDigit with
      | ';' :: r2 => ' ' :: stripEnt r2
      | _ => '&' :: stripEnt ('#' :: rest)
  | c :: rest => c :: stripEnt rest
  | [] => []
termination_by l.length
decreasing_by
  · simp
  · have hs := (List.dropWhile_sublist (l := rest) Char.isDigit).length_le
    rw [hdw] at hs
    simp at hs ⊢
    omega
  · simp
  · simp

/-- Global replacement of whitespace runs by a single space: a
whitespace character followed by more whitespace is dropped, and the
last character of each whitespace run becomes the single space. -/
def collapseWs : List Char → List Char
  | [] => []
  | [c] => if jsWs c then [' '] else [c]
  | c :: d :: rest =>
    if jsWs c then
      (if jsWs d then collapseWs (d :: rest)
       else ' ' :: collapseWs (d :: rest))
    else c :: collapseWs (d :: rest)

/-- Remove trailing whitespace. -/
def trimEndWs (l : List Char) : List Char :=
  ((l.reverse.dropWhile jsWs).reverse)

/-- String.prototype.trim: drop leading and trailing whitespace. -/
def jsTrim (l : List Char) : List Char :=
  trimEndWs (l.dropWhile jsWs)

/-- cleanText: strip HTML tags, replace the nbsp entity, replace numeric
entities, collapse whitespace, trim. -/
def cleanText (l : List Char) : List Char :=
  jsTrim (collapseWs (stripEnt (stripNbsp (stripTags l))))

/-- Does the given Boolean test hold of every suffix of the list? -/
def everySuffix (p : List Char → Bool) : List Char → Bool
  | [] => p []
  | c :: rest => p (c :: rest) && everySuffix p rest

/-- No tag match can start anywhere: every '<' is either the last
character or followed immediately by '>'. -/
def noTagStart : List Char → Bool
  | [] => true
  | c :: rest =>
    (if c = '<' then
      match rest with
      | [] => true
      | d :: _ => d = '>'
    else true) && noTagStart rest

/-- Does a numeric entity match start at the head of the list? -/
def entHere : List Char → Bool
  | '&' :: '#' :: rest =>
    !(rest.takeWhile Char.isDigit).isEmpty &&
    (match rest.dropWhile Char.isDigit with
     | ';' :: _ => true
     | _ => false)
  | _ => false

/-- No nbsp entity occurs anywhere. -/
def noNbsp (l : List Char) : Bool :=
  everySuffix (fun s => !matchesNbsp s) l

/-- No numeric entity occurs anywhere. -/
def noEnt (l : List Char) : Bool :=
  everySuffix (fun s => !entHere s) l

/-- No two adjacent whitespace characters. -/
def wsSingle : List Char → Bool
  | [] => true
  | [_] => true
  | c :: d :: rest => !(jsWs c && jsWs d) && wsSingle (d :: rest)

/-- Every whitespace character is a plain space. -/
def wsSpaceOnly (l : List Char) : Bool :=
  l.all (fun c => !jsWs c || c = ' ')

/-- Neither end of the list is whitespace. -/
def noEdgeWs (l : List Char) : Bool :=
  (match l with
   | [] => true
   | c :: _ => !jsWs c) &&
  (match l.getLast? with
   | none => true
   | some c => !jsWs c)

/-- Normal form for cleanText: no stage of the pipeline can change the
text. -/
def cleanNormal (l : List Char) : Bool :=
  noTagStart l && noNbsp l && noEnt l && wsSpaceOnly l && wsSingle l &&
  noEdgeWs l

/-!  ## A small backtracking pattern engine

The extraction patterns are translated into this abstract syntax and run
by a matcher that enumerates partial matches in the JS backtracking
order: alternatives left to right, greedy repetition longest first, lazy
repetition shortest first, concatenation with the left part dominating.
The matcher takes fuel; every recursive call spends one unit, and the
callers pass ample fuel, so on the inputs evaluated here it behaves as
the unbounded matcher. -/

/-- Pattern syntax: empty, a character class, concatenation,
alternation, bounded repetition (min, max, lazy?), unbounded repetition
(star, lazy?), word boundary, end of input. -/
inductive RE where
  | eps : RE
  | cpred : (Char → Bool) → RE
  | cat : RE → RE → RE
  | alt : RE → RE → RE
  | rep : Nat → Nat → Bool → RE → RE
  | star : Bool → RE → RE
  | wb : RE
  | eos : RE

/-- JS word character class (backslash-w). -/
def wordChar (c : Char) : Bool :=
  c.isAlpha || c.isDigit || c = '_'

/-- Word boundary test between the previous character and the head of
the remaining input. -/
def atBoundary (prev : Option Char) (s : List Char) : Bool :=
  let pw := match prev with
            | none => false
            | some c => wordChar c
  let nw := match s with
            | [] => false
            | c :: _ => wordChar c
  pw != nw

/-- One partial match: the consumed characters, the new previous
character, and the remaining input. -/
def MRes : Type := List Char × Option Char × List Char

/-- All partial matches of a pattern against the input, in backtracking
priority order.  Repetition only continues over iterations that consumed
input, as the JS engine stops repeating on an empty iteration. -/
def runRE : Nat → RE → Option Char → List Char → List MRes
  | 0, _, _, _ => []
  | _ + 1, .eps, prev, s => [([], prev, s)]
  | _ + 1, .cpred p, prev, s =>
    match s with
    | [] => []
    | c :: rest => if p c then [([c], some c, rest)] else []
  | fuel + 1, .cat a b, prev, s =>
    (runRE fuel a prev s).flatMap fun r1 =>
      (runRE fuel b r1.2.1 r1.2.2).map fun r2 =>
        (r1.1 ++ r2.1, r2.2.1, r2.2.2)
  | fuel + 1, .alt a b, prev, s =>
    runRE fuel a prev s ++ runRE fuel b prev s
  | fuel + 1, .rep lo hi lzy r, prev, s =>
    match lo, hi with
    | 0, 0 => [([], prev, s)]
    | 0, hi' + 1 =>
      let more :=
        (runRE fuel r prev s).flatMap fun r1 =>
          if r1.2.2.length < s.length then
            (runRE fuel (.rep 0 hi' lzy r) r1.2.1 r1.2.2).map fun r2 =>
              (r1.1 ++ r2.1, r2.2.1, r2.2.2)
          else []
      if lzy then ([], prev, s) :: more else more ++ [([], prev, s)]
    | lo' + 1, hi' =>
      (runRE fuel r prev s).flatMap fun r1 =>
        (runRE fuel (.rep lo' (hi' - 1) lzy r) r1.2.1 r1.2.2).map fun r2 =>
          (r1.1 ++ r2.1, r2.2.1, r2.2.2)
  | fuel + 1, .star lzy r, prev, s =>
    let more :=
      (runRE fuel r prev s).flatMap fun r1 =>
        if r1.2.2.length < s.length then
          (runRE fuel (.star lzy r) r1.2.1 r1.2.2).map fun r2 =>
            (r1.1 ++ r2.1, r2.2.1, r2.2.2)
        else []
    if lzy then ([], prev, s) :: more else more ++ [([], prev, s)]
  | _ + 1, .wb, prev, s =>
    if atBoundary prev s then [([], prev, s)] else []
  | _ + 1, .eos, prev, s =>
    if s.isEmpty then [([], prev, s)] else []

/-- A pattern with exactly one capture group: the part before the group,
the group, and the part after the group.  Every extraction pattern in
the source has exactly this shape. -/
structure Pat where
  pre : RE
  grp : RE
  post : RE

/-- All full matches of the pattern at the current position, in priority
order: each yields the captured group and the state after the whole
match. -/
def patMatchesHere (fuel : Nat) (p : Pat) (prev : Option Char)
    (s : List Char) : List MRes :=
  (runRE fuel p.pre prev s).flatMap fun r1 =>
    (runRE fuel p.grp r1.2.1 r1.2.2).flatMap fun r2 =>
      (runRE fuel p.post r2.2.1 r2.2.2).map fun r3 =>
        (r2.1, r3.2.1, r3.2.2)

/-- Leftmost match of the pattern (JS String.prototype.match without the
g flag): the capture of the first successful position, with the state
after the match.  steps bounds the number of start positions tried;
callers pass the input length plus one, which covers every position. -/
def searchPat (steps fuel : Nat) (p : Pat) (prev : Option Char)
    (s : List Char) : Option MRes :=
  match steps with
  | 0 => none
  | steps' + 1 =>
    match (patMatchesHere fuel p prev s).head? with
    | some r => some r
    | none =>
      match s with
      | [] => none
      | c :: rest => searchPat steps' fuel p (some c) rest

/-- All matches in JS g-flag order: leftmost first, each subsequent
search resuming after the end of the previous match (advancing one
character when a match consumed nothing). -/
def searchAllPat (steps fuel : Nat) (p : Pat) (prev : Option Char)
    (s : List Char) : List (List Char) :=
  match steps with
  | 0 => []
  | steps' + 1 =>
    match searchPat (s.length + 1) fuel p prev s with
    | none => []
    | some r =>
      if r.2.2.length < s.length then
        r.1 :: searchAllPat steps' fuel p r.2.1 r.2.2
      else
        r.1 :: (match r.2.2 with
                | [] => []
                | c :: rest => searchAllPat steps' fuel p (some c) rest)

/-!  ## Pattern-building helpers -/

/-- Concatenation of a list of patterns. -/
def cats : List RE → RE
  | [] => .eps
  | [r] => r
  | r :: rest => .cat r (cats rest)

/-- Alternation of a list of patterns, left to right. -/
def alts : List RE → RE
  | [] => .eps
  | [r] => r
  | r :: rest => .alt r (alts rest)

/-- Case-insensitive literal character. -/
def chri (c : Char) : RE :=
  .cpred (fun d => d.toLower = c.toLower)

/-- Case-insensitive literal string. -/
def stri (s : String) : RE :=
  cats (s.data.map chri)

/-- Case-sensitive literal character. -/
def chr (c : Char) : RE :=
  .cpred (fun d => d = c)

/-- A character from an explicit list. -/
def oneOf (l : List Char) : RE :=
  .cpred (fun d => l.contains d)

/-- Optional pattern (question mark, greedy). -/
def opt (r : RE) : RE := .rep 0 1 false r

/-- Whitespace star (backslash-s star, greedy). -/
def ws0 : RE := .star false (.cpred jsWs)

/-- Whitespace plus (backslash-s plus, greedy). -/
def ws1 : RE := .cat (.cpred jsWs) (.star false (.cpred jsWs))

/-- Digit class. -/
def dig : RE := .cpred Char.isDigit

/-- The capture group [0-9]{4,8}, greedy. -/
def dig48 : RE := .rep 4 8 false dig

/-- Any character ([backslash-s backslash-S]). -/
def anyC : RE := .cpred (fun _ => true)

/-- Non-digit class [^0-9]. -/
def nonDig : RE := .cpred (fun c => !c.isDigit)

/-- Dash or whitespace class [-backslash-s]. -/
def dashWs : RE := .cpred (fun c => c = '-' || jsWs c)

/-- Exactly n digits. -/
def digN (n : Nat) : RE := .rep n n false dig

/-!  ## Extraction pipeline (src/services/otp-extractor.js) -/

/-- Keywords that indicate verification/authentication context. -/
def VERIFICATION_KEYWORDS : List String :=
  ["verification", "verify", "code", "pin", "otp", "passcode",
   "confirmation", "confirm", "security", "secure", "authorization",
   "authenticate", "authentication", "auth", "login", "log in",
   "sign in", "sign-in", "2fa", "two-factor", "two factor",
   "one-time", "one time", "onetime", "password", "token",
   "access code", "temporary code", "validation"]

/-- Case-insensitive keyword containment over the lowercased text. -/
def hasVerificationContext (text : List Char) : Bool :=
  let lowerText := text.map Char.toLower
  VERIFICATION_KEYWORDS.any (fun keyword => hasSub keyword.data lowerText)

/-- processCode: strip to alphanumeric and to digits, prefer the numeric
reading, fall back to the uppercased alphanumeric reading, consulting
the validator in both branches. -/
def processCode (codeString : List Char) : Option (List Char) :=
  if codeString.isEmpty then none
  else
    let cleaned := codeString.filter (fun c => c.isAlpha || c.isDigit)
    let numericOnly := codeString.filter Char.isDigit
    if 4 ≤ numericOnly.length && numericOnly.length ≤ 8 &&
       isValidOTPL numericOnly then
      some numericOnly
    else if 4 ≤ cleaned.length && cleaned.length ≤ 8 &&
            isValidOTPL cleaned then
      some (cleaned.map Char.toUpper)
    else none

/-- Tier 1: explicit label patterns (seven patterns, i flag). -/
def explicitPatterns : List Pat :=
  [{ pre := cats
       [alts [stri "verification", stri "confirmation", stri "security",
              .cat (stri "auth") (opt (stri "entication")),
              cats [stri "one", opt (oneOf ['-', ' ']), stri "time"],
              stri "2fa",
              cats [stri "two", opt (oneOf ['-', ' ']), stri "factor"],
              stri "temporary"],
        ws0, stri "code", ws0,
        alts [stri "is", chr ':', chr '=', chr ':'], ws0],
     grp := dig48, post := .eps },
   { pre := cats
       [alts [stri "your", stri "the"], ws1,
        opt (alts [.cat (stri "verification") ws1,
                   .cat (stri "security") ws1,
                   cats [stri "one", opt (oneOf ['-', ' ']), stri "time",
                         ws1]]),
        alts [stri "code", stri "otp", stri "pin", stri "passcode"], ws0,
        alts [stri "is", chr ':', chr '='], ws0],
     grp := dig48, post := .eps },
   { pre := cats
       [.wb, alts [stri "code", stri "pin", stri "otp", stri "passcode"],
        ws0, oneOf [':', '='], ws0],
     grp := dig48, post := .wb },
   { pre := cats
       [alts [stri "use", stri "enter", stri "input", stri "type"], ws1,
        opt (alts [.cat (stri "this") ws1, .cat (stri "the") ws1]),
        alts [stri "code", stri "otp", stri "pin"], ws0,
        opt (oneOf [':', '=']), ws0],
     grp := dig48, post := .eps },
   { pre := .wb, grp := dig48,
     post := cats
       [ws1, stri "is", ws1, stri "your", ws1,
        opt (alts [.cat (stri "verification") ws1,
                   .cat (stri "security") ws1]),
        alts [stri "code", stri "otp", stri "pin"]] },
   { pre := cats
       [stri "here", ws1, stri "is", ws1, opt (.cat (stri "your") ws1),
        alts [stri "code", stri "otp", stri "pin"], ws0,
        opt (oneOf [':', '=']), ws0],
     grp := dig48, post := .eps },
   { pre := cats
       [stri "code", ws1, stri "to", ws1,
        alts [stri "verify", stri "confirm", stri "complete",
              stri "access"],
        ws0, opt (oneOf [':', '=']), ws0],
     grp := dig48, post := .eps }]

/-- Tier 2: formatted codes with labels (two patterns, i flag). -/
def formattedPatterns : List Pat :=
  [{ pre := cats
       [.wb, alts [stri "code", stri "pin", stri "otp", stri "passcode"],
        ws0, opt (oneOf [':', '=']), ws0],
     grp := cats [digN 3, dashWs, digN 3], post := .wb },
   { pre := cats
       [.wb, alts [stri "code", stri "pin", stri "otp", stri "passcode"],
        ws0, opt (oneOf [':', '=']), ws0],
     grp := cats [digN 2, dashWs, digN 2, dashWs, digN 2], post := .wb }]

/-- Tier 3: quoted or emphasized codes (three patterns). -/
def quotedPatterns : List Pat :=
  [{ pre := oneOf ['"', Char.ofNat 39], grp := dig48,
     post := oneOf ['"', Char.ofNat 39] },
   { pre := .cat (chr '*') (.star false (chr '*')), grp := dig48,
     post := .cat (chr '*') (.star false (chr '*')) },
   { pre := cats
       [alts [stri "code", stri "otp", stri "pin", stri "verification"],
        .rep 0 30 false nonDig, chr '['],
     grp := dig48, post := chr ']' }]

/-- Tier 4: context proximity patterns (nine patterns, i flag). -/
def contextPatterns : List Pat :=
  [{ pre := cats
       [opt (.cat (stri "use") ws1), stri "this", ws1, stri "code",
        .rep 1 300 true anyC, .wb],
     grp := dig48, post := .wb },
   { pre := cats
       [stri "enter", ws1, opt (.cat (stri "the") ws1),
        opt (.cat (stri "following") ws1), stri "code",
        .rep 1 300 true anyC, .wb],
     grp := dig48, post := .wb },
   { pre := .wb, grp := dig48,
     post := cats
       [.wb, .rep 1 100 true anyC, opt (.cat (stri "will") ws1),
        stri "expire"] },
   { pre := cats [stri "expire", .rep 1 100 true anyC, .wb],
     grp := dig48, post := .wb },
   { pre := cats
       [stri "sign", ws0, alts [stri "in", stri "up"],
        .rep 1 250 true anyC, .wb],
     grp := dig48, post := .wb },
   { pre := cats [stri "log", ws0, stri "in", .rep 1 250 true anyC, .wb],
     grp := dig48, post := .wb },
   { pre := cats [stri "verification", .rep 1 200 true anyC, .wb],
     grp := dig48, post := .wb },
   { pre := cats
       [stri "one", opt (oneOf ['-', ' ']), stri "time",
        .rep 1 150 true anyC, .wb],
     grp := dig48, post := .wb },
   { pre := cats [.wb, stri "code", .wb, .rep 1 50 false nonDig],
     grp := dig48, post := .wb }]

/-- Tier 5: standalone separator-formatted codes (three patterns). -/
def standaloneFormatted : List Pat :=
  [{ pre := .wb, grp := cats [digN 3, dashWs, digN 3], post := .wb },
   { pre := .wb, grp := cats [digN 2, dashWs, digN 2, dashWs, digN 2],
     post := .wb },
   { pre := .wb, grp := cats [digN 4, dashWs, digN 4], post := .wb }]

/-- Tier 6: priority phrases whose 400-character window is scanned. -/
def priorityPhrases : List String :=
  ["this code", "your code", "the code", "enter code", "use code",
   "verification code", "confirmation code", "security code",
   "one-time code", "access code", "login code", "otp"]

/-- The bare code pattern of tiers 6: word-bounded 4-8 digit token. -/
def barePat : Pat := { pre := .wb, grp := dig48, post := .wb }

/-- The tier-7 pattern for a fixed length: word-bounded token of exactly
len digits. -/
def lenPat (len : Nat) : Pat := { pre := .wb, grp := digN len, post := .wb }

/-- Tier 7 length priority order. -/
def fallbackLengths : List Nat := [6, 4, 5, 8]

/-- Run the patterns of one tier in order: the first whose leftmost
match has a non-empty capture that processCode accepts wins; a match
whose candidate the resolver rejects falls through to the next
pattern. -/
def runTier (fuel : Nat) (pats : List Pat) (s : List Char) :
    Option (List Char) :=
  match pats with
  | [] => none
  | p :: rest =>
    match searchPat (s.length + 1) fuel p none s with
    | some r =>
      if r.1.isEmpty then runTier fuel rest s
      else
        match processCode r.1 with
        | some code => some code
        | none => runTier fuel rest s
    | none => runTier fuel rest s

/-- First candidate in the list that processCode accepts. -/
def firstValid (caps : List (List Char)) : Option (List Char) :=
  match caps with
  | [] => none
  | c :: rest =>
    match processCode c with
    | some code => some code
    | none => firstValid rest

/-- Tier 6: for each priority phrase in order, find its first occurrence
in the lowercased text, take the 400-character window from the phrase
start, collect every word-bounded 4-8 digit token in it, and return the
first that the resolver accepts. -/
def tier6go (fuel : Nat) (clean : List Char) : List String →
    Option (List Char)
  | [] => none
  | ph :: rest =>
    match indexOfSub ph.data (clean.map Char.toLower) with
    | some i =>
      let window := (clean.drop i).take 400
      match firstValid
          (searchAllPat (window.length + 1) fuel barePat none window) with
      | some code => some code
      | none => tier6go fuel clean rest
    | none => tier6go fuel clean rest

/-- Tier 7: for each length in priority order, collect every
word-bounded token of exactly that length and return the first that the
resolver accepts. -/
def tier7go (fuel : Nat) (clean : List Char) : List Nat →
    Option (List Char)
  | [] => none
  | len :: rest =>
    match firstValid
        (searchAllPat (clean.length + 1) fuel (lenPat len) none clean) with
    | some code => some code
    | none => tier7go fuel clean rest

/-- Confidence levels. -/
inductive Confidence where
  | high : Confidence
  | medium : Confidence
  | low : Confidence
deriving DecidableEq, Repr

/-- Result of extractOTP. -/
structure OTPResult where
  code : List Char
  confidence : Confidence
deriving DecidableEq, Repr

/-- Source tag of extractOTPFromEmail. -/
inductive Source where
  | subject : Source
  | body : Source
deriving DecidableEq, Repr

/-- Result of extractOTPFromEmail. -/
structure EmailResult where
  code : List Char
  confidence : Confidence
  source : Source
deriving DecidableEq, Repr

/-- Ample fuel for the engine on the given text. -/
def extractFuel (s : List Char) : Nat := 2 * s.length + 2000

/-- Gate and pattern cascade on already-normalized text: require
verification context, then run the seven tiers in order with their
confidences. -/
def extractFromClean (clean : List Char) : Option OTPResult :=
  if !hasVerificationContext clean then none
  else
    let fuel := extractFuel clean
    match runTier fuel explicitPatterns clean with
        | some code => some ⟨code, .high⟩
        | none =>
          match runTier fuel formattedPatterns clean with
          | some code => some ⟨code, .high⟩
          | none =>
            match runTier fuel quotedPatterns clean with
            | some code => some ⟨code, .high⟩
            | none =>
              match runTier fuel contextPatterns clean with
              | some code => some ⟨code, .medium⟩
              | none =>
                match runTier fuel standaloneFormatted clean with
                | some code => some ⟨code, .medium⟩
                | none =>
                  match tier6go fuel clean priorityPhrases with
                  | some code => some ⟨code, .medium⟩
                  | none =>
                    match tier7go fuel clean fallbackLengths with
                    | some code => some ⟨code, .low⟩
                    | none => none

/-- extractOTP: reject absent/non-string/empty input, normalize, then
gate and run the cascade. -/
def extractOTP : Option String → Option OTPResult
  | none => none
  | some t =>
    if t.data.isEmpty then none
    else extractFromClean (cleanText t.data)

/-- JS truthiness of an optional string. -/
def strTruthy : Option String → Bool
  | none => false
  | some s => !s.data.isEmpty

/-- extractOTPFromEmail: try the subject, then the body, tagging the
source. -/
def extractOTPFromEmail (subject body : Option String) :
    Option EmailResult :=
  match (if strTruthy subject then extractOTP subject else none) with
  | some r => some ⟨r.code, r.confidence, .subject⟩
  | none =>
    match (if strTruthy body then extractOTP body else none) with
    | some r => some ⟨r.code, r.confidence, .body⟩
    | none => none

/-!  ## Syntactic window inspection (for the tier-4 proximity claim) -/

/-- The bounds of the proximity-window repetitions in a pattern: the
upper bounds of the repetition nodes with lower bound 1.  In the tier-4
patterns these are exactly the bounded gaps between context phrase and
digit token (optional parts have lower bound 0 and are not windows). -/
def windowsOf : RE → List Nat
  | .eps => []
  | .cpred _ => []
  | .wb => []
  | .eos => []
  | .cat a b => windowsOf a ++ windowsOf b
  | .alt a b => windowsOf a ++ windowsOf b
  | .rep lo hi _ r => (if lo = 1 then [hi] else []) ++ windowsOf r
  | .star _ r => windowsOf r

/-- All proximity windows of a pattern. -/
def patWindows (p : Pat) : List Nat :=
  windowsOf p.pre ++ windowsOf p.grp ++ windowsOf p.post

/-- Every character class in the pattern is contained in P. -/
def REonly (P : Char → Bool) : RE → Prop
  | .eps => True
  | .cpred q => ∀ c, q c = true → P c = true
  | .cat a b => REonly P a ∧ REonly P b
  | .alt a b => REonly P a ∧ REonly P b
  | .rep _ _ _ r => REonly P r
  | .star _ r => REonly P r
  | .wb => True
  | .eos => True

/-- Characters that are not ASCII letters; every capture group in the
extraction patterns consumes only such characters. -/
def noLetter (c : Char) : Bool := !c.isAlpha

/-- Does the head of the list satisfy the given predicates in order?
(A predicate-level prefix test, used to reason about shape occurrences
across the normalizer stages.) -/
def leadPred : List (Char → Bool) → List Char → Bool
  | [], _ => true
  | _ :: _, [] => false
  | p :: ps, c :: cs => p c && leadPred ps cs

/-- The character tests of the case-insensitive nbsp entity. -/
def nbspPreds : List (Char → Bool) :=
  "&nbsp;".data.map (fun pc => fun c => Char.toLower c = pc)

/-- Can a tag match start at the head of the list: a less-than sign
followed by a character other than the greater-than sign? -/
def tagHere : List Char → Bool
  | c :: d :: _ => c = '<' && !(d = '>')
  | _ => false

/-!  # Theorems -/

/-!  ## Character helpers -/

theorem charLe {a b : Char} : (a ≤ b) ↔ a.toNat ≤ b.toNat := by
  exact_mod_cast Iff.rfl

theorem char_ofNat_toNat {n : Nat} (h : n.isValidChar) :
    (Char.ofNat n).toNat = n := by
  rw [Char.ofNat, dif_pos h]
  rfl

theorem charEq_toNat {a b : Char} : (a = b) ↔ a.toNat = b.toNat := by
  constructor
  · intro h
    rw [h]
  · intro h
    apply Char.ext
    exact UInt32.ext h

theorem toUpper_toUpper (c : Char) : c.toUpper.toUpper = c.toUpper := by
  unfold Char.toUpper
  by_cases h : c.toNat ≥ 97 ∧ c.toNat ≤ 122
  · rw [if_pos h]
    have h2 : (Char.ofNat (c.toNat - 32)).toNat = c.toNat - 32 :=
      char_ofNat_toNat (Or.inl (by omega))
    rw [if_neg (by omega)]
  · rw [if_neg h, if_neg h]

theorem isDigit_toNat {c : Char} :
    c.isDigit = true ↔ (48 ≤ c.toNat ∧ c.toNat ≤ 57) := by
  simp [Char.isDigit, charLe]
  try tauto

theorem isAlpha_toNat {c : Char} :
    c.isAlpha = true ↔
      ((65 ≤ c.toNat ∧ c.toNat ≤ 90) ∨ (97 ≤ c.toNat ∧ c.toNat ≤ 122)) := by
  simp [Char.isAlpha, Char.isUpper, Char.isLower, charLe]
  try tauto

theorem upperAlnum_toNat {c : Char} :
    upperAlnum c = true ↔
      ((65 ≤ c.toNat ∧ c.toNat ≤ 90) ∨ (48 ≤ c.toNat ∧ c.toNat ≤ 57)) := by
  simp [upperAlnum, charLe, isDigit_toNat]
  try tauto

theorem jsWs_eq_false_of_range {c : Char} (h1 : 48 ≤ c.toNat)
    (h2 : c.toNat ≤ 122) : jsWs c = false := by
  have v1 : (Char.ofNat 0x0B).toNat = 0x0B :=
    char_ofNat_toNat (Or.inl (by norm_num))
  have v2 : (Char.ofNat 0x0C).toNat = 0x0C :=
    char_ofNat_toNat (Or.inl (by norm_num))
  have v3 : (Char.ofNat 0xA0).toNat = 0xA0 :=
    char_ofNat_toNat (Or.inl (by norm_num))
  have v4 : (Char.ofNat 0xFEFF).toNat = 0xFEFF :=
    char_ofNat_toNat (Or.inr (by norm_num))
  have v5 : (Char.ofNat 0x1680).toNat = 0x1680 :=
    char_ofNat_toNat (Or.inl (by norm_num))
  have v6 : (Char.ofNat 0x2000).toNat = 0x2000 :=
    char_ofNat_toNat (Or.inl (by norm_num))
  have v7 : (Char.ofNat 0x200A).toNat = 0x200A :=
    char_ofNat_toNat (Or.inl (by norm_num))
  have v8 : (Char.ofNat 0x2028).toNat = 0x2028 :=
    char_ofNat_toNat (Or.inl (by norm_num))
  have v9 : (Char.ofNat 0x2029).toNat = 0x2029 :=
    char_ofNat_toNat (Or.inl (by norm_num))
  have v10 : (Char.ofNat 0x202F).toNat = 0x202F :=
    char_ofNat_toNat (Or.inl (by norm_num))
  have v11 : (Char.ofNat 0x205F).toNat = 0x205F :=
    char_ofNat_toNat (Or.inl (by norm_num))
  have v12 : (Char.ofNat 0x3000).toNat = 0x3000 :=
    char_ofNat_toNat (Or.inl (by norm_num))
  simp only [jsWs, charEq_toNat, charLe, Bool.or_eq_false_iff,
    decide_eq_false_iff_not, v1, v2, v3, v4, v5, v6, v7, v8, v9, v10,
    v11, v12, Bool.and_eq_false_iff]
  have w1 : (' ' : Char).toNat = 32 := rfl
  have w2 : ('\t' : Char).toNat = 9 := rfl
  have w3 : ('\n' : Char).toNat = 10 := rfl
  have w4 : ('\r' : Char).toNat = 13 := rfl
  norm_num [w1, w2, w3, w4]
  omega

theorem toUpper_toNat (c : Char) :
    c.toUpper.toNat =
      if 97 ≤ c.toNat ∧ c.toNat ≤ 122 then c.toNat - 32 else c.toNat := by
  unfold Char.toUpper
  by_cases h : c.toNat ≥ 97 ∧ c.toNat ≤ 122
  · rw [if_pos h, if_pos ⟨h.1, h.2⟩]
    exact char_ofNat_toNat (by omega)
  · rw [if_neg h, if_neg (by omega)]

theorem upperAlnum_toUpper {c : Char} (h : (c.isAlpha || c.isDigit) = true) :
    upperAlnum c.toUpper = true := by
  rw [upperAlnum_toNat, toUpper_toNat]
  simp only [Bool.or_eq_true, isAlpha_toNat, isDigit_toNat] at h
  rcases h with (h | h) | h
  · rw [if_neg (by omega)]
    omega
  · rw [if_pos (by omega)]
    omega
  · rw [if_neg (by omega)]
    omega

theorem upperAlnum_of_isDigit {c : Char} (h : c.isDigit = true) :
    upperAlnum c = true := by
  rw [upperAlnum_toNat]
  rw [isDigit_toNat] at h
  omega

/-!  ## Candidate Resolver (claim C1) -/

theorem notStripped_of_alnum {c : Char} (h : (c.isAlpha || c.isDigit) = true) :
    (!(c = '-' || jsWs c)) = true := by
  simp only [Bool.or_eq_true, isAlpha_toNat, isDigit_toNat] at h
  have hr1 : 48 ≤ c.toNat := by omega
  have hr2 : c.toNat ≤ 122 := by omega
  simp only [Bool.not_eq_true', Bool.or_eq_false_iff,
    jsWs_eq_false_of_range hr1 hr2, decide_eq_false_iff_not, and_true]
  intro he
  rw [charEq_toNat] at he
  have : ('-' : Char).toNat = 45 := rfl
  omega

theorem cleanOTP_of_alnum {x : List Char}
    (h : ∀ c ∈ x, (c.isAlpha || c.isDigit) = true) :
    cleanOTP x = x.map Char.toUpper := by
  unfold cleanOTP
  rw [List.filter_eq_self.mpr]
  intro c hc
  exact notStripped_of_alnum (h c hc)

theorem alnum_toUpper {c : Char} (h : (c.isAlpha || c.isDigit) = true) :
    (c.toUpper.isAlpha || c.toUpper.isDigit) = true := by
  simp only [Bool.or_eq_true, isAlpha_toNat, isDigit_toNat, toUpper_toNat]
  simp only [Bool.or_eq_true, isAlpha_toNat, isDigit_toNat] at h
  rcases h with (h | h) | h
  · rw [if_neg (by omega)]
    omega
  · rw [if_pos (by omega)]
    omega
  · rw [if_neg (by omega)]
    omega

theorem isValidOTPL_map_toUpper {x : List Char}
    (h : ∀ c ∈ x, (c.isAlpha || c.isDigit) = true) :
    isValidOTPL (x.map Char.toUpper) = isValidOTPL x := by
  have hclean : cleanOTP (x.map Char.toUpper) = cleanOTP x := by
    rw [cleanOTP_of_alnum h, cleanOTP_of_alnum (by
      intro c hc
      rw [List.mem_map] at hc
      obtain ⟨d, hd, rfl⟩ := hc
      exact alnum_toUpper (h d hd))]
    rw [List.map_map]
    apply List.map_congr_left
    intro c _
    exact toUpper_toUpper c
  unfold isValidOTPL
  rw [hclean]
  rcases x with _ | ⟨c, rest⟩
  · rfl
  · rfl

/-- C1: processCode returns the digit-only form of the candidate exactly
when that form has length 4-8 and passes the validator; failing that,
the uppercased alphanumeric-only form when it has length 4-8 and passes
the validator; otherwise no result.  Every emitted result has length
4-8, consists only of characters [A-Z0-9], and satisfies isValidOTP. -/
theorem C1_processCode_resolver (cs : List Char) :
    (processCode cs =
      if 4 ≤ (cs.filter Char.isDigit).length ∧
         (cs.filter Char.isDigit).length ≤ 8 ∧
         isValidOTPL (cs.filter Char.isDigit) = true then
        some (cs.filter Char.isDigit)
      else if 4 ≤ (cs.filter (fun c => c.isAlpha || c.isDigit)).length ∧
              (cs.filter (fun c => c.isAlpha || c.isDigit)).length ≤ 8 ∧
              isValidOTPL (cs.filter (fun c => c.isAlpha || c.isDigit)) =
                true then
        some ((cs.filter (fun c => c.isAlpha || c.isDigit)).map
          Char.toUpper)
      else none) ∧
    (∀ r, processCode cs = some r →
      4 ≤ r.length ∧ r.length ≤ 8 ∧ r.all upperAlnum = true ∧
      isValidOTP (some (String.mk r)) = true) := by
  have hmain : processCode cs =
      if 4 ≤ (cs.filter Char.isDigit).length ∧
         (cs.filter Char.isDigit).length ≤ 8 ∧
         isValidOTPL (cs.filter Char.isDigit) = true then
        some (cs.filter Char.isDigit)
      else if 4 ≤ (cs.filter (fun c => c.isAlpha || c.isDigit)).length ∧
              (cs.filter (fun c => c.isAlpha || c.isDigit)).length ≤ 8 ∧
              isValidOTPL (cs.filter (fun c => c.isAlpha || c.isDigit)) =
                true then
        some ((cs.filter (fun c => c.isAlpha || c.isDigit)).map
          Char.toUpper)
      else none := by
    unfold processCode
    rcases cs with _ | ⟨c, rest⟩
    · simp
    · rw [if_neg (by simp)]
      simp only [ge_iff_le, Bool.and_eq_true, decide_eq_true_eq]
      split_ifs with h1 h2 h3 h4 h5 h6 <;>
        simp_all <;> omega
  refine ⟨hmain, ?_⟩
  intro r hr
  rw [hmain] at hr
  split_ifs at hr with h1 h2
  · cases hr
    refine ⟨h1.1, h1.2.1, ?_, ?_⟩
    · rw [List.all_eq_true]
      intro c hc
      exact upperAlnum_of_isDigit (List.of_mem_filter hc)
    · show isValidOTPL (String.mk (cs.filter Char.isDigit)).data = true
      exact h1.2.2
  · cases hr
    have halnum : ∀ c ∈ cs.filter (fun c => c.isAlpha || c.isDigit),
        (c.isAlpha || c.isDigit) = true := by
      intro c hc
      rw [List.mem_filter] at hc
      exact hc.2
    refine ⟨?_, ?_, ?_, ?_⟩
    · rw [List.length_map]
      exact h2.1
    · rw [List.length_map]
      exact h2.2.1
    · rw [List.all_eq_true]
      intro c hc
      rw [List.mem_map] at hc
      obtain ⟨d, hd, rfl⟩ := hc
      exact upperAlnum_toUpper (halnum d hd)
    · show isValidOTPL ((cs.filter (fun c => c.isAlpha || c.isDigit)).map
        Char.toUpper) = true
      rw [isValidOTPL_map_toUpper halnum]
      exact h2.2.2

/-- Witness for C1 at the concrete candidate 58-19-02. -/
theorem C1_processCode_resolver_witness :
    processCode "58-19-02".data = some "581902".data ∧
    (4 ≤ "581902".data.length ∧ "581902".data.length ≤ 8 ∧
      "581902".data.all upperAlnum = true ∧
      isValidOTP (some (String.mk "581902".data)) = true) :=
  ⟨by decide,
   (C1_processCode_resolver "58-19-02".data).2 "581902".data (by decide)⟩

theorem getVFR_eq_firstFailing (code : Option String) :
    getValidationFailureReason code = firstFailingRule code := by
  match code with
  | none => rfl
  | some s =>
    by_cases h0 : s.data.isEmpty
    · simp [getValidationFailureReason, firstFailingRule, validationRules,
        List.find?, h0]
    · have hp0 : s.data.isEmpty = false := by simpa using h0
      simp only [getValidationFailureReason]
      rw [if_neg (by simp [hp0])]
      split_ifs with h1 h2 h3 h4 h5 h6 h7 h8 h9 h10 h11
      · unfold firstFailingRule validationRules
        rw [List.find?_cons_of_neg _ (by show ¬((!(!s.data.isEmpty)) = true); simp [hp0]),
          List.find?_cons_of_pos _ (by show (!(decide (4 ≤ (cleanOTP s.data).length))) = true; simp only [Bool.not_eq_true', decide_eq_false_iff_not]; omega)]
        rfl
      · unfold firstFailingRule validationRules
        rw [List.find?_cons_of_neg _ (by show ¬((!(!s.data.isEmpty)) = true); simp [hp0]),
          List.find?_cons_of_neg _ (by show ¬((!(decide (4 ≤ (cleanOTP s.data).length))) = true); simp only [Bool.not_eq_true', decide_eq_false_iff_not]; omega),
          List.find?_cons_of_pos _ (by show (!(decide ((cleanOTP s.data).length ≤ 8))) = true; simp only [Bool.not_eq_true', decide_eq_false_iff_not]; omega)]
        rfl
      · unfold firstFailingRule validationRules
        rw [List.find?_cons_of_neg _ (by show ¬((!(!s.data.isEmpty)) = true); simp [hp0]),
          List.find?_cons_of_neg _ (by show ¬((!(decide (4 ≤ (cleanOTP s.data).length))) = true); simp only [Bool.not_eq_true', decide_eq_false_iff_not]; omega),
          List.find?_cons_of_neg _ (by show ¬((!(decide ((cleanOTP s.data).length ≤ 8))) = true); simp only [Bool.not_eq_true', decide_eq_false_iff_not]; omega),
          List.find?_cons_of_pos _ (by show (!(isAlnumAZ09 (cleanOTP s.data))) = true; simpa using h3)]
        rfl
      · unfold firstFailingRule validationRules
        rw [List.find?_cons_of_neg _ (by show ¬((!(!s.data.isEmpty)) = true); simp [hp0]),
          List.find?_cons_of_neg _ (by show ¬((!(decide (4 ≤ (cleanOTP s.data).length))) = true); simp only [Bool.not_eq_true', decide_eq_false_iff_not]; omega),
          List.find?_cons_of_neg _ (by show ¬((!(decide ((cleanOTP s.data).length ≤ 8))) = true); simp only [Bool.not_eq_true', decide_eq_false_iff_not]; omega),
          List.find?_cons_of_neg _ (by show ¬((!(isAlnumAZ09 (cleanOTP s.data))) = true); simpa using h3),
          List.find?_cons_of_pos _ (by show (!(!isAllZeros (cleanOTP s.data))) = true; simpa using h4)]
        rfl
      · unfold firstFailingRule validationRules
        rw [List.find?_cons_of_neg _ (by show ¬((!(!s.data.isEmpty)) = true); simp [hp0]),
          List.find?_cons_of_neg _ (by show ¬((!(decide (4 ≤ (cleanOTP s.data).length))) = true); simp only [Bool.not_eq_true', decide_eq_false_iff_not]; omega),
          List.find?_cons_of_neg _ (by show ¬((!(decide ((cleanOTP s.data).length ≤ 8))) = true); simp only [Bool.not_eq_true', decide_eq_false_iff_not]; omega),
          List.find?_cons_of_neg _ (by show ¬((!(isAlnumAZ09 (cleanOTP s.data))) = true); simpa using h3),
          List.find?_cons_of_neg _ (by show ¬((!(!isAllZeros (cleanOTP s.data))) = true); simpa using h4),
          List.find?_cons_of_pos _ (by show (!(!isSequential (cleanOTP s.data))) = true; simpa using h5)]
        rfl
      · unfold firstFailingRule validationRules
        rw [List.find?_cons_of_neg _ (by show ¬((!(!s.data.isEmpty)) = true); simp [hp0]),
          List.find?_cons_of_neg _ (by show ¬((!(decide (4 ≤ (cleanOTP s.data).length))) = true); simp only [Bool.not_eq_true', decide_eq_false_iff_not]; omega),
          List.find?_cons_of_neg _ (by show ¬((!(decide ((cleanOTP s.data).length ≤ 8))) = true); simp only [Bool.not_eq_true', decide_eq_false_iff_not]; omega),
          List.find?_cons_of_neg _ (by show ¬((!(isAlnumAZ09 (cleanOTP s.data))) = true); simpa using h3),
          List.find?_cons_of_neg _ (by show ¬((!(!isAllZeros (cleanOTP s.data))) = true); simpa using h4),
          List.find?_cons_of_neg _ (by show ¬((!(!isSequential (cleanOTP s.data))) = true); simpa using h5),
          List.find?_cons_of_pos _ (by show (!(!isRepetitive (cleanOTP s.data))) = true; simpa using h6)]
        rfl
      · unfold firstFailingRule validationRules
        rw [List.find?_cons_of_neg _ (by show ¬((!(!s.data.isEmpty)) = true); simp [hp0]),
          List.find?_cons_of_neg _ (by show ¬((!(decide (4 ≤ (cleanOTP s.data).length))) = true); simp only [Bool.not_eq_true', decide_eq_false_iff_not]; omega),
          List.find?_cons_of_neg _ (by show ¬((!(decide ((cleanOTP s.data).length ≤ 8))) = true); simp only [Bool.not_eq_true', decide_eq_false_iff_not]; omega),
          List.find?_cons_of_neg _ (by show ¬((!(isAlnumAZ09 (cleanOTP s.data))) = true); simpa using h3),
          List.find?_cons_of_neg _ (by show ¬((!(!isAllZeros (cleanOTP s.data))) = true); simpa using h4),
          List.find?_cons_of_neg _ (by show ¬((!(!isSequential (cleanOTP s.data))) = true); simpa using h5),
          List.find?_cons_of_neg _ (by show ¬((!(!isRepetitive (cleanOTP s.data))) = true); simpa using h6),
          List.find?_cons_of_pos _ (by show (!(!(allDigits (cleanOTP s.data) && isDatePattern (cleanOTP s.data)))) = true; simpa using h7)]
        rfl
      · unfold firstFailingRule validationRules
        rw [List.find?_cons_of_neg _ (by show ¬((!(!s.data.isEmpty)) = true); simp [hp0]),
          List.find?_cons_of_neg _ (by show ¬((!(decide (4 ≤ (cleanOTP s.data).length))) = true); simp only [Bool.not_eq_true', decide_eq_false_iff_not]; omega),
          List.find?_cons_of_neg _ (by show ¬((!(decide ((cleanOTP s.data).length ≤ 8))) = true); simp only [Bool.not_eq_true', decide_eq_false_iff_not]; omega),
          List.find?_cons_of_neg _ (by show ¬((!(isAlnumAZ09 (cleanOTP s.data))) = true); simpa using h3),
          List.find?_cons_of_neg _ (by show ¬((!(!isAllZeros (cleanOTP s.data))) = true); simpa using h4),
          List.find?_cons_of_neg _ (by show ¬((!(!isSequential (cleanOTP s.data))) = true); simpa using h5),
          List.find?_cons_of_neg _ (by show ¬((!(!isRepetitive (cleanOTP s.data))) = true); simpa using h6),
          List.find?_cons_of_neg _ (by show ¬((!(!(allDigits (cleanOTP s.data) && isDatePattern (cleanOTP s.data)))) = true); simpa using h7),
          List.find?_cons_of_pos _ (by show (!(!(allDigits (cleanOTP s.data) && isYearPattern (cleanOTP s.data)))) = true; simpa using h8)]
        rfl
      · unfold firstFailingRule validationRules
        rw [List.find?_cons_of_neg _ (by show ¬((!(!s.data.isEmpty)) = true); simp [hp0]),
          List.find?_cons_of_neg _ (by show ¬((!(decide (4 ≤ (cleanOTP s.data).length))) = true); simp only [Bool.not_eq_true', decide_eq_false_iff_not]; omega),
          List.find?_cons_of_neg _ (by show ¬((!(decide ((cleanOTP s.data).length ≤ 8))) = true); simp only [Bool.not_eq_true', decide_eq_false_iff_not]; omega),
          List.find?_cons_of_neg _ (by show ¬((!(isAlnumAZ09 (cleanOTP s.data))) = true); simpa using h3),
          List.find?_cons_of_neg _ (by show ¬((!(!isAllZeros (cleanOTP s.data))) = true); simpa using h4),
          List.find?_cons_of_neg _ (by show ¬((!(!isSequential (cleanOTP s.data))) = true); simpa using h5),
          List.find?_cons_of_neg _ (by show ¬((!(!isRepetitive (cleanOTP s.data))) = true); simpa using h6),
          List.find?_cons_of_neg _ (by show ¬((!(!(allDigits (cleanOTP s.data) && isDatePattern (cleanOTP s.data)))) = true); simpa using h7),
          List.find?_cons_of_neg _ (by show ¬((!(!(allDigits (cleanOTP s.data) && isYearPattern (cleanOTP s.data)))) = true); simpa using h8),
          List.find?_cons_of_pos _ (by show (!(isValidAlphanumeric (cleanOTP s.data))) = true; simpa using h9)]
        rfl
      · unfold firstFailingRule validationRules
        rw [List.find?_cons_of_neg _ (by show ¬((!(!s.data.isEmpty)) = true); simp [hp0]),
          List.find?_cons_of_neg _ (by show ¬((!(decide (4 ≤ (cleanOTP s.data).length))) = true); simp only [Bool.not_eq_true', decide_eq_false_iff_not]; omega),
          List.find?_cons_of_neg _ (by show ¬((!(decide ((cleanOTP s.data).length ≤ 8))) = true); simp only [Bool.not_eq_true', decide_eq_false_iff_not]; omega),
          List.find?_cons_of_neg _ (by show ¬((!(isAlnumAZ09 (cleanOTP s.data))) = true); simpa using h3),
          List.find?_cons_of_neg _ (by show ¬((!(!isAllZeros (cleanOTP s.data))) = true); simpa using h4),
          List.find?_cons_of_neg _ (by show ¬((!(!isSequential (cleanOTP s.data))) = true); simpa using h5),
          List.find?_cons_of_neg _ (by show ¬((!(!isRepetitive (cleanOTP s.data))) = true); simpa using h6),
          List.find?_cons_of_neg _ (by show ¬((!(!(allDigits (cleanOTP s.data) && isDatePattern (cleanOTP s.data)))) = true); simpa using h7),
          List.find?_cons_of_neg _ (by show ¬((!(!(allDigits (cleanOTP s.data) && isYearPattern (cleanOTP s.data)))) = true); simpa using h8),
          List.find?_cons_of_neg _ (by show ¬((!(isValidAlphanumeric (cleanOTP s.data))) = true); simpa using h9),
          List.find?_cons_of_pos _ (by show (!(!isCSSValue (cleanOTP s.data))) = true; simpa using h10)]
        rfl
      · unfold firstFailingRule validationRules
        rw [List.find?_cons_of_neg _ (by show ¬((!(!s.data.isEmpty)) = true); simp [hp0]),
          List.find?_cons_of_neg _ (by show ¬((!(decide (4 ≤ (cleanOTP s.data).length))) = true); simp only [Bool.not_eq_true', decide_eq_false_iff_not]; omega),
          List.find?_cons_of_neg _ (by show ¬((!(decide ((cleanOTP s.data).length ≤ 8))) = true); simp only [Bool.not_eq_true', decide_eq_false_iff_not]; omega),
          List.find?_cons_of_neg _ (by show ¬((!(isAlnumAZ09 (cleanOTP s.data))) = true); simpa using h3),
          List.find?_cons_of_neg _ (by show ¬((!(!isAllZeros (cleanOTP s.data))) = true); simpa using h4),
          List.find?_cons_of_neg _ (by show ¬((!(!isSequential (cleanOTP s.data))) = true); simpa using h5),
          List.find?_cons_of_neg _ (by show ¬((!(!isRepetitive (cleanOTP s.data))) = true); simpa using h6),
          List.find?_cons_of_neg _ (by show ¬((!(!(allDigits (cleanOTP s.data) && isDatePattern (cleanOTP s.data)))) = true); simpa using h7),
          List.find?_cons_of_neg _ (by show ¬((!(!(allDigits (cleanOTP s.data) && isYearPattern (cleanOTP s.data)))) = true); simpa using h8),
          List.find?_cons_of_neg _ (by show ¬((!(isValidAlphanumeric (cleanOTP s.data))) = true); simpa using h9),
          List.find?_cons_of_neg _ (by show ¬((!(!isCSSValue (cleanOTP s.data))) = true); simpa using h10),
          List.find?_cons_of_pos _ (by show (!(!isLikelyColorCode (cleanOTP s.data))) = true; simpa using h11)]
        rfl
      · unfold firstFailingRule validationRules
        rw [List.find?_cons_of_neg _ (by show ¬((!(!s.data.isEmpty)) = true); simp [hp0]),
          List.find?_cons_of_neg _ (by show ¬((!(decide (4 ≤ (cleanOTP s.data).length))) = true); simp only [Bool.not_eq_true', decide_eq_false_iff_not]; omega),
          List.find?_cons_of_neg _ (by show ¬((!(decide ((cleanOTP s.data).length ≤ 8))) = true); simp only [Bool.not_eq_true', decide_eq_false_iff_not]; omega),
          List.find?_cons_of_neg _ (by show ¬((!(isAlnumAZ09 (cleanOTP s.data))) = true); simpa using h3),
          List.find?_cons_of_neg _ (by show ¬((!(!isAllZeros (cleanOTP s.data))) = true); simpa using h4),
          List.find?_cons_of_neg _ (by show ¬((!(!isSequential (cleanOTP s.data))) = true); simpa using h5),
          List.find?_cons_of_neg _ (by show ¬((!(!isRepetitive (cleanOTP s.data))) = true); simpa using h6),
          List.find?_cons_of_neg _ (by show ¬((!(!(allDigits (cleanOTP s.data) && isDatePattern (cleanOTP s.data)))) = true); simpa using h7),
          List.find?_cons_of_neg _ (by show ¬((!(!(allDigits (cleanOTP s.data) && isYearPattern (cleanOTP s.data)))) = true); simpa using h8),
          List.find?_cons_of_neg _ (by show ¬((!(isValidAlphanumeric (cleanOTP s.data))) = true); simpa using h9),
          List.find?_cons_of_neg _ (by show ¬((!(!isCSSValue (cleanOTP s.data))) = true); simpa using h10),
          List.find?_cons_of_neg _ (by show ¬((!(!isLikelyColorCode (cleanOTP s.data))) = true); simpa using h11)]
        rfl

theorem getVFR_none_iff (code : Option String) :
    getValidationFailureReason code = none ↔ isValidOTP code = true := by
  match code with
  | none => simp [getValidationFailureReason, isValidOTP]
  | some s =>
    show getValidationFailureReason (some s) = none ↔
      isValidOTPL s.data = true
    by_cases h0 : s.data.isEmpty
    · simp [getValidationFailureReason, isValidOTPL, h0]
    · simp only [getValidationFailureReason, isValidOTPL, h0,
        Bool.false_eq_true, if_false]
      by_cases h1 : (cleanOTP s.data).length < 4
      · simp [h1, Nat.lt_of_lt_of_le]
      · by_cases h2 : (cleanOTP s.data).length > 8
        · simp [h1, h2]
        · have hlen : ¬((cleanOTP s.data).length < 4 ∨
              (cleanOTP s.data).length > 8) := by omega
          by_cases h3 : isAlnumAZ09 (cleanOTP s.data)
          all_goals by_cases h4 : isAllZeros (cleanOTP s.data)
          all_goals by_cases h5 : isSequential (cleanOTP s.data)
          all_goals by_cases h6 : isRepetitive (cleanOTP s.data)
          all_goals by_cases h7 : allDigits (cleanOTP s.data) &&
            isDatePattern (cleanOTP s.data)
          all_goals by_cases h8 : allDigits (cleanOTP s.data) &&
            isYearPattern (cleanOTP s.data)
          all_goals by_cases h9 : isValidAlphanumeric (cleanOTP s.data)
          all_goals by_cases h10 : isCSSValue (cleanOTP s.data)
          all_goals by_cases h11 : isLikelyColorCode (cleanOTP s.data)
          all_goals simp [h1, h2, h3, h4, h5, h6, h7, h8, h9, h10, h11]

/-- C2: for every input, including non-string and empty inputs, the
diagnostic getValidationFailureReason returns none exactly when
isValidOTP returns true, and any reason it returns is the name of the
first rule in the shared rule order whose check the input fails. -/
theorem C2_diagnostic_matches_validator (code : Option String) :
    (getValidationFailureReason code = none ↔ isValidOTP code = true) ∧
    (∀ r, getValidationFailureReason code = some r →
      firstFailingRule code = some r) := by
  refine ⟨getVFR_none_iff code, ?_⟩
  intro r hr
  rw [← getVFR_eq_firstFailing code]
  exact hr

/-- Witness for C2 at the concrete input 40px, whose first failing rule
is the CSS-value rule. -/
theorem C2_diagnostic_matches_validator_witness :
    firstFailingRule (some "40px") = some "CSS value" :=
  (C2_diagnostic_matches_validator (some "40px")).2 "CSS value" (by decide)

/-- C4: any string whose cleaned form (dashes/whitespace stripped,
uppercased) contains one of the fixed ascending or descending digit runs
as a substring is rejected by isValidOTP. -/
theorem C4_sequential_rejection (s : String)
    (h : ∃ p ∈ SEQUENTIAL_PATTERNS, hasSub p (cleanOTP s.data) = true) :
    isValidOTP (some s) = false := by
  obtain ⟨p, hp, hsub⟩ := h
  have hseq : isSequential (cleanOTP s.data) = true := by
    unfold isSequential
    rw [List.any_eq_true]
    exact ⟨p, hp, hsub⟩
  show isValidOTPL s.data = false
  simp only [isValidOTPL]
  split_ifs with g0 g1 g2 g3 g4 g5 g6 g7 g8 g9 g10 <;>
    first | rfl | exact absurd hseq g4

/-- Witness for C4: the code 961234 embeds the run 1234 and is rejected,
and 123456 is itself a listed run and is rejected. -/
theorem C4_sequential_rejection_witness :
    (∃ p ∈ SEQUENTIAL_PATTERNS, hasSub p (cleanOTP "961234".data) = true) ∧
    isValidOTP (some "961234") = false ∧
    isValidOTP (some "123456") = false :=
  ⟨by decide, C4_sequential_rejection "961234" (by decide),
   C4_sequential_rejection "123456" (by decide)⟩

/-- C3 counterexample: it is not the case that every tier-4 pattern
keeps its proximity window within 100-300 characters with the captured
token after the phrase.  The generic code pattern (last entry) has a
50-character window, and the code-before-expire pattern (third entry)
has its window after the capture, so the token precedes its phrase. -/
theorem C3_counterexample_window_shape :
    ¬(∀ p ∈ contextPatterns,
        (∀ w ∈ patWindows p, 100 ≤ w ∧ w ≤ 300) ∧
        windowsOf p.post = []) := by decide

/-- C3 amended: every tier-4 pattern has exactly one bounded proximity
window, with bound between 50 and 300 characters, and the window sits
after the capture (token before phrase) only in the third
(code-before-expire) pattern. -/
theorem C3_tier4_window_bounds :
    (∀ p ∈ contextPatterns,
       (patWindows p).length = 1 ∧
       ∀ w ∈ patWindows p, 50 ≤ w ∧ w ≤ 300) ∧
    contextPatterns.map (fun p => windowsOf p.post) =
      [[], [], [100], [], [], [], [], [], []] := by decide

/-!  ## Fixed points of the normalizer stages -/

theorem stripTags_id : ∀ l, noTagStart l = true → stripTags l = l := by
  intro l
  induction l using stripTags.induct with
  | case1 =>
    intro _
    simp [stripTags]
  | case2 =>
    intro _
    simp [stripTags]
  | case3 cs ih =>
    intro h
    simp only [noTagStart, Bool.and_eq_true] at h
    simp only [stripTags, if_true]
    rw [ih (by simp [noTagStart, h.2.2])]
  | case4 c cs hc hdw ih =>
    intro h
    simp only [noTagStart, Bool.and_eq_true] at h
    exact absurd (by simpa using h.1) hc
  | case5 c cs hc hd r hdw ih =>
    intro h
    simp only [noTagStart, Bool.and_eq_true] at h
    exact absurd (by simpa using h.1) hc
  | case6 c rest hc ih =>
    intro h
    simp only [noTagStart, Bool.and_eq_true] at h
    simp only [stripTags]
    rw [ih h.2]

theorem stripNbsp_id : ∀ l, noNbsp l = true → stripNbsp l = l := by
  intro l
  induction l using stripNbsp.induct with
  | case1 =>
    intro _
    simp [stripNbsp]
  | case2 c rest hm ih =>
    intro h
    simp only [noNbsp, everySuffix, Bool.and_eq_true] at h
    exact absurd hm (by simpa using h.1)
  | case3 c rest hm ih =>
    intro h
    simp only [noNbsp, everySuffix, Bool.and_eq_true] at h
    simp only [stripNbsp]
    rw [if_neg (by simpa using hm)]
    rw [ih h.2]

theorem stripEnt_id : ∀ l, noEnt l = true → stripEnt l = l := by
  intro l
  induction l using stripEnt.induct with
  | case1 rest hemp ih =>
    intro h
    simp only [noEnt, everySuffix, Bool.and_eq_true] at h
    have h2 : noEnt ('#' :: rest) = true := by
      simp only [noEnt, everySuffix, Bool.and_eq_true]
      exact ⟨h.2.1, h.2.2⟩
    have hih := ih h2
    simp only [stripEnt] at hih ⊢
    rw [hih, if_pos hemp]
  | case2 rest hemp r2 hdw ih =>
    intro h
    simp only [noEnt, everySuffix, Bool.and_eq_true] at h
    exfalso
    have hent : entHere ('&' :: '#' :: rest) = true := by
      simp only [entHere, hdw]
      simp [hemp]
    have := h.1
    rw [hent] at this
    simp at this
  | case3 rest hemp hne ih =>
    intro h
    simp only [noEnt, everySuffix, Bool.and_eq_true] at h
    have h2 : noEnt ('#' :: rest) = true := by
      simp only [noEnt, everySuffix, Bool.and_eq_true]
      exact ⟨h.2.1, h.2.2⟩
    have hih := ih h2
    simp only [stripEnt] at hih ⊢
    rw [hih, ite_self]
  | case4 c rest hne ih =>
    intro h
    simp only [noEnt, everySuffix, Bool.and_eq_true] at h
    have hih := ih h.2
    simp only [stripEnt] at hih ⊢
    rw [hih]
  | case5 =>
    intro _
    simp [stripEnt]

theorem dropWhile_id_of_head {l : List Char}
    (h : match l with
         | [] => True
         | c :: _ => jsWs c = false) :
    l.dropWhile jsWs = l := by
  match l with
  | [] => rfl
  | c :: rest =>
    simp only at h
    simp [List.dropWhile, h]

theorem collapseWs_id : ∀ l, wsSpaceOnly l = true → wsSingle l = true →
    collapseWs l = l := by
  intro l
  induction l using collapseWs.induct with
  | case1 =>
    intro _ _
    rfl
  | case2 c hws =>
    intro hsp _
    have hc : c = ' ' := by
      simp only [wsSpaceOnly, List.all_cons, Bool.and_eq_true] at hsp
      have h1 := hsp.1
      rw [hws] at h1
      simpa using h1
    simp only [collapseWs]
    rw [if_pos hws, hc]
  | case3 c hws =>
    intro _ _
    simp only [collapseWs]
    rw [if_neg hws]
  | case4 c d rest hwc hwd ih =>
    intro hsp hsi
    exfalso
    simp only [wsSingle, Bool.and_eq_true] at hsi
    have h1 := hsi.1
    rw [hwc, hwd] at h1
    simp at h1
  | case5 c d rest hwc hwd ih =>
    intro hsp hsi
    have hc : c = ' ' := by
      simp only [wsSpaceOnly, List.all_cons, Bool.and_eq_true] at hsp
      have h1 := hsp.1
      rw [hwc] at h1
      simpa using h1
    have hih := ih (by
        simp only [wsSpaceOnly, List.all_cons, Bool.and_eq_true] at hsp ⊢
        exact hsp.2)
      (by
        simp only [wsSingle, Bool.and_eq_true] at hsi
        exact hsi.2)
    simp only [collapseWs]
    rw [if_pos hwc, if_neg hwd, hih, hc]
  | case6 c d rest hwc ih =>
    intro hsp hsi
    have hih := ih (by
        simp only [wsSpaceOnly, List.all_cons, Bool.and_eq_true] at hsp ⊢
        exact hsp.2)
      (by
        simp only [wsSingle, Bool.and_eq_true] at hsi
        exact hsi.2)
    simp only [collapseWs]
    rw [if_neg hwc, hih]

theorem jsTrim_id : ∀ l, noEdgeWs l = true → jsTrim l = l := by
  intro l h
  simp only [noEdgeWs, Bool.and_eq_true] at h
  have hhead : l.dropWhile jsWs = l := by
    apply dropWhile_id_of_head
    match l, h with
    | [], h => trivial
    | c :: rest, h =>
      have := h.1
      simpa using this
  have hrev : l.reverse.dropWhile jsWs = l.reverse := by
    apply dropWhile_id_of_head
    match hr : l.reverse with
    | [] => trivial
    | c :: rest =>
      have hlast : l.getLast? = some c := by
        rw [← List.head?_reverse, hr]
        rfl
      have h2 := h.2
      rw [hlast] at h2
      simpa using h2
  unfold jsTrim trimEndWs
  rw [hhead, hrev, List.reverse_reverse]

theorem cleanNormal_fix (l : List Char) (h : cleanNormal l = true) :
    cleanText l = l := by
  simp only [cleanNormal, Bool.and_eq_true] at h
  obtain ⟨⟨⟨⟨⟨h1, h2⟩, h3⟩, h4⟩, h5⟩, h6⟩ := h
  unfold cleanText
  rw [stripTags_id l h1, stripNbsp_id l h2, stripEnt_id l h3,
    collapseWs_id l h4 h5, jsTrim_id l h6]

/-!  ## Source selector and gate (claims C6, C7, C9) -/

theorem extractOTP_of_falsy {t : Option String} (h : strTruthy t = false) :
    extractOTP t = none := by
  match t with
  | none => rfl
  | some s =>
    simp only [strTruthy, Bool.not_eq_false'] at h
    simp [extractOTP, h]

theorem strTruthy_of_extract {t : Option String} {r : OTPResult}
    (h : extractOTP t = some r) : strTruthy t = true := by
  by_cases hst : strTruthy t
  · exact hst
  · rw [extractOTP_of_falsy (by simpa using hst)] at h
    cases h

/-- C6: the source selector returns the subject result tagged subject
whenever the subject pipeline succeeds, regardless of the body; when the
subject pipeline fails it returns the body result tagged body; and when
both fail it returns none, as a normal outcome. -/
theorem C6_source_selector (subject body : Option String) :
    (∀ r, extractOTP subject = some r →
      extractOTPFromEmail subject body =
        some ⟨r.code, r.confidence, Source.subject⟩) ∧
    (extractOTP subject = none →
      ∀ r, extractOTP body = some r →
        extractOTPFromEmail subject body =
          some ⟨r.code, r.confidence, Source.body⟩) ∧
    (extractOTP subject = none → extractOTP body = none →
      extractOTPFromEmail subject body = none) := by
  refine ⟨?_, ?_, ?_⟩
  · intro r hr
    have hst := strTruthy_of_extract hr
    simp [extractOTPFromEmail, hst, hr]
  · intro hs r hr
    have hbt := strTruthy_of_extract hr
    simp [extractOTPFromEmail, hs, hbt, hr]
  · intro hs hb
    simp [extractOTPFromEmail, hs, hb]

/-- Witness for C6: a subject containing a code wins over a body that
also contains one, and the result is tagged subject. -/
theorem C6_source_selector_witness :
    extractOTP (some "Your OTP is 294817") =
      some ⟨"294817".data, Confidence.high⟩ ∧
    extractOTPFromEmail (some "Your OTP is 294817")
      (some "Use code 571394") =
      some ⟨"294817".data, Confidence.high, Source.subject⟩ := by
  have hc : cleanText "Your OTP is 294817".data =
      "Your OTP is 294817".data :=
    cleanNormal_fix _ (by decide)
  have hr : extractOTP (some "Your OTP is 294817") =
      some ⟨"294817".data, Confidence.high⟩ := by
    simp only [extractOTP]
    rw [if_neg (by decide), hc]
    decide
  exact ⟨hr, (C6_source_selector _ _).1 _ hr⟩

/-- C7: when the normalized text contains none of the verification
keywords, extractOTP returns none. -/
theorem C7_context_gate (t : String)
    (h : hasVerificationContext (cleanText t.data) = false) :
    extractOTP (some t) = none := by
  simp only [extractOTP]
  by_cases he : t.data.isEmpty
  · rw [if_pos he]
  · rw [if_neg he]
    unfold extractFromClean
    rw [h]
    simp

/-- Witness for C7: a text with no verification keyword and a number
that the validator would accept still yields no extraction result. -/
theorem C7_context_gate_witness :
    hasVerificationContext
      (cleanText "Your number is 571394".data) = false ∧
    isValidOTP (some "571394") = true ∧
    extractOTP (some "Your number is 571394") = none := by
  have hc : cleanText "Your number is 571394".data =
      "Your number is 571394".data :=
    cleanNormal_fix _ (by decide)
  refine ⟨?_, by decide, ?_⟩
  · rw [hc]
    decide
  · exact C7_context_gate _ (by rw [hc]; decide)

/-- C9: absent, non-string or empty input degrades to a no-match result
rather than an error, at every entry point. -/
theorem C9_graceful_degradation :
    extractOTP none = none ∧
    extractOTP (some "") = none ∧
    extractOTPFromEmail none none = none ∧
    isValidOTP none = false ∧
    isValidOTP (some "") = false ∧
    getValidationFailureReason none = some "Invalid input" := by
  refine ⟨rfl, by decide, by decide, rfl, by decide, rfl⟩

/-- C5: scenario B.  The subject Newsletter fails the context gate, tier
1 finds nothing in the body, the tier-2 separator pattern captures
58-19-02, the resolver's numeric branch yields 581902, and the overall
result is that code with high confidence from the body. -/
theorem C5_scenario_newsletter :
    extractOTPFromEmail (some "Newsletter")
      (some "Thanks for signing in. Your verification code: 58-19-02") =
      some ⟨"581902".data, Confidence.high, Source.body⟩ ∧
    hasVerificationContext (cleanText "Newsletter".data) = false ∧
    runTier
      (extractFuel (cleanText
        "Thanks for signing in. Your verification code: 58-19-02".data))
      explicitPatterns
      (cleanText
        "Thanks for signing in. Your verification code: 58-19-02".data) =
      none ∧
    (searchPat
      ((cleanText
        "Thanks for signing in. Your verification code: 58-19-02".data).length
        + 1)
      (extractFuel (cleanText
        "Thanks for signing in. Your verification code: 58-19-02".data))
      (formattedPatterns.getD 1 barePat) none
      (cleanText
        "Thanks for signing in. Your verification code: 58-19-02".data)).map
      (fun r => r.1) = some "58-19-02".data ∧
    processCode "58-19-02".data = some "581902".data := by
  have hcs : cleanText "Newsletter".data = "Newsletter".data :=
    cleanNormal_fix _ (by decide)
  have hcb : cleanText
      "Thanks for signing in. Your verification code: 58-19-02".data =
      "Thanks for signing in. Your verification code: 58-19-02".data :=
    cleanNormal_fix _ (by decide)
  have hsubj : extractOTP (some "Newsletter") = none := by
    simp only [extractOTP]
    rw [if_neg (by decide), hcs]
    decide
  have hbody : extractOTP
      (some "Thanks for signing in. Your verification code: 58-19-02") =
      some ⟨"581902".data, Confidence.high⟩ := by
    simp only [extractOTP]
    rw [if_neg (by decide), hcb]
    decide
  refine ⟨?_, ?_, ?_, ?_, by decide⟩
  · have hbt : strTruthy
        (some "Thanks for signing in. Your verification code: 58-19-02") =
        true := by decide
    simp [extractOTPFromEmail, hsubj, hbody, hbt]
  · rw [hcs]
    decide
  · rw [hcb]
    decide
  · rw [hcb]
    decide

/-!  ## Captures consume only characters of their classes (claim C10) -/

theorem runRE_chars {P : Char → Bool} :
    ∀ (fuel : Nat) (re : RE) (prev : Option Char) (s : List Char),
      REonly P re →
      ∀ res ∈ runRE fuel re prev s, ∀ c ∈ res.1, P c = true := by
  intro fuel
  induction fuel with
  | zero =>
    intro re prev s _ res hres
    simp [runRE] at hres
  | succ fuel ih =>
    intro re prev s hre res hres
    match re with
    | .eps =>
      simp only [runRE, List.mem_singleton] at hres
      subst hres
      intro c hc
      simp at hc
    | .cpred q =>
      match s with
      | [] => simp [runRE] at hres
      | d :: rest =>
        simp only [runRE] at hres
        split at hres
        · simp only [List.mem_singleton] at hres
          subst hres
          intro c hc
          simp only [List.mem_singleton] at hc
          subst hc
          exact hre c (by assumption)
        · simp at hres
    | .cat a b =>
      simp only [runRE, List.mem_flatMap, List.mem_map] at hres
      obtain ⟨r1, hr1, r2, hr2, heq⟩ := hres
      subst heq
      intro c hc
      simp only [List.mem_append] at hc
      rcases hc with hc | hc
      · exact ih a prev s hre.1 r1 hr1 c hc
      · exact ih b r1.2.1 r1.2.2 hre.2 r2 hr2 c hc
    | .alt a b =>
      simp only [runRE, List.mem_append] at hres
      rcases hres with hres | hres
      · exact ih a prev s hre.1 res hres
      · exact ih b prev s hre.2 res hres
    | .rep lo hi lzy r =>
      match lo, hi with
      | 0, 0 =>
        simp only [runRE, List.mem_singleton] at hres
        subst hres
        intro c hc
        simp at hc
      | 0, hi' + 1 =>
        have hmore : ∀ x ∈ ((runRE fuel r prev s).flatMap fun r1 =>
            if r1.2.2.length < s.length then
              (runRE fuel (.rep 0 hi' lzy r) r1.2.1 r1.2.2).map fun r2 =>
                (r1.1 ++ r2.1, r2.2.1, r2.2.2)
            else []), ∀ c ∈ x.1, P c = true := by
          intro x hx
          simp only [List.mem_flatMap] at hx
          obtain ⟨r1, hr1, hx⟩ := hx
          split at hx
          · simp only [List.mem_map] at hx
            obtain ⟨r2, hr2, heq⟩ := hx
            subst heq
            intro c hc
            simp only [List.mem_append] at hc
            rcases hc with hc | hc
            · exact ih r prev s hre r1 hr1 c hc
            · exact ih (.rep 0 hi' lzy r) r1.2.1 r1.2.2 hre r2 hr2 c hc
          · simp at hx
        simp only [runRE] at hres
        split at hres
        · rcases List.mem_cons.mp hres with heq | hres
          · subst heq
            intro c hc
            simp at hc
          · exact hmore res hres
        · rcases List.mem_append.mp hres with hres | hres
          · exact hmore res hres
          · simp only [List.mem_singleton] at hres
            subst hres
            intro c hc
            simp at hc
      | lo' + 1, hi' =>
        simp only [runRE, List.mem_flatMap, List.mem_map] at hres
        obtain ⟨r1, hr1, r2, hr2, heq⟩ := hres
        subst heq
        intro c hc
        simp only [List.mem_append] at hc
        rcases hc with hc | hc
        · exact ih r prev s hre r1 hr1 c hc
        · exact ih (.rep lo' (hi' - 1) lzy r) r1.2.1 r1.2.2 hre r2 hr2 c hc
    | .star lzy r =>
      have hmore : ∀ x ∈ ((runRE fuel r prev s).flatMap fun r1 =>
          if r1.2.2.length < s.length then
            (runRE fuel (.star lzy r) r1.2.1 r1.2.2).map fun r2 =>
              (r1.1 ++ r2.1, r2.2.1, r2.2.2)
          else []), ∀ c ∈ x.1, P c = true := by
        intro x hx
        simp only [List.mem_flatMap] at hx
        obtain ⟨r1, hr1, hx⟩ := hx
        split at hx
        · simp only [List.mem_map] at hx
          obtain ⟨r2, hr2, heq⟩ := hx
          subst heq
          intro c hc
          simp only [List.mem_append] at hc
          rcases hc with hc | hc
          · exact ih r prev s hre r1 hr1 c hc
          · exact ih (.star lzy r) r1.2.1 r1.2.2 hre r2 hr2 c hc
        · simp at hx
      simp only [runRE] at hres
      split at hres
      · rcases List.mem_cons.mp hres with heq | hres
        · subst heq
          intro c hc
          simp at hc
        · exact hmore res hres
      · rcases List.mem_append.mp hres with hres | hres
        · exact hmore res hres
        · simp only [List.mem_singleton] at hres
          subst hres
          intro c hc
          simp at hc
    | .wb =>
      simp only [runRE] at hres
      split at hres
      · simp only [List.mem_singleton] at hres
        subst hres
        intro c hc
        simp at hc
      · simp at hres
    | .eos =>
      simp only [runRE] at hres
      split at hres
      · simp only [List.mem_singleton] at hres
        subst hres
        intro c hc
        simp at hc
      · simp at hres

theorem patMatchesHere_chars {P : Char → Bool} {fuel : Nat} {p : Pat}
    {prev : Option Char} {s : List Char} (hg : REonly P p.grp) :
    ∀ res ∈ patMatchesHere fuel p prev s, ∀ c ∈ res.1, P c = true := by
  intro res hres
  simp only [patMatchesHere, List.mem_flatMap, List.mem_map] at hres
  obtain ⟨r1, hr1, r2, hr2, r3, hr3, heq⟩ := hres
  subst heq
  intro c hc
  exact runRE_chars fuel p.grp r1.2.1 r1.2.2 hg r2 hr2 c hc

theorem head?_mem {α : Type} {l : List α} {a : α} (h : l.head? = some a) :
    a ∈ l := by
  match l with
  | [] => cases h
  | b :: rest =>
    simp at h
    subst h
    exact List.mem_cons_self _ _

theorem searchPat_chars {P : Char → Bool} {fuel : Nat} {p : Pat}
    (hg : REonly P p.grp) :
    ∀ (steps : Nat) (prev : Option Char) (s : List Char) (r : MRes),
      searchPat steps fuel p prev s = some r → ∀ c ∈ r.1, P c = true := by
  intro steps
  induction steps with
  | zero =>
    intro prev s r h
    simp [searchPat] at h
  | succ steps ih =>
    intro prev s r h
    simp only [searchPat] at h
    cases hh : (patMatchesHere fuel p prev s).head? with
    | some r0 =>
      rw [hh] at h
      injection h with h2
      subst h2
      exact patMatchesHere_chars hg r0 (head?_mem hh)
    | none =>
      rw [hh] at h
      match s, h with
      | [], h => cases h
      | c :: rest, h => exact ih (some c) rest r h

theorem searchAllPat_chars {P : Char → Bool} {fuel : Nat} {p : Pat}
    (hg : REonly P p.grp) :
    ∀ (steps : Nat) (prev : Option Char) (s : List Char),
      ∀ cap ∈ searchAllPat steps fuel p prev s, ∀ c ∈ cap, P c = true := by
  intro steps
  induction steps with
  | zero =>
    intro prev s cap hcap
    simp [searchAllPat] at hcap
  | succ steps ih =>
    intro prev s cap hcap
    simp only [searchAllPat] at hcap
    cases hs : searchPat (s.length + 1) fuel p prev s with
    | none =>
      rw [hs] at hcap
      simp at hcap
    | some r =>
      simp only [hs] at hcap
      have hr := searchPat_chars hg (s.length + 1) prev s r hs
      split at hcap
      · rcases List.mem_cons.mp hcap with heq | hcap
        · subst heq
          exact hr
        · exact ih r.2.1 r.2.2 cap hcap
      · rcases List.mem_cons.mp hcap with heq | hcap
        · subst heq
          exact hr
        · match hrr : r.2.2, hcap with
          | [], hcap => simp at hcap
          | c :: rest, hcap => exact ih (some c) rest cap hcap

theorem digit_noLetter {c : Char} (h : c.isDigit = true) :
    noLetter c = true := by
  simp only [noLetter, Bool.not_eq_true']
  rw [isDigit_toNat] at h
  cases hA : c.isAlpha
  · rfl
  · rw [isAlpha_toNat] at hA
    omega

theorem dashWs_noLetter {c : Char} (h : (c = '-' || jsWs c) = true) :
    noLetter c = true := by
  simp only [noLetter, Bool.not_eq_true']
  cases hA : c.isAlpha
  · rfl
  · exfalso
    rw [isAlpha_toNat] at hA
    simp only [Bool.or_eq_true, decide_eq_true_eq] at h
    rcases h with h | h
    · subst h
      simp at hA
    · rw [jsWs_eq_false_of_range (by omega) (by omega)] at h
      cases h

theorem REonly_dig48 : REonly noLetter dig48 := by
  simp only [dig48, REonly, dig]
  intro c hc
  exact digit_noLetter hc

theorem REonly_digN (n : Nat) : REonly noLetter (digN n) := by
  simp only [digN, REonly, dig]
  intro c hc
  exact digit_noLetter hc

theorem REonly_sep33 :
    REonly noLetter (cats [digN 3, dashWs, digN 3]) := by
  simp only [cats, REonly, dashWs]
  exact ⟨REonly_digN 3, fun c hc => dashWs_noLetter hc, REonly_digN 3⟩

theorem REonly_sep222 :
    REonly noLetter (cats [digN 2, dashWs, digN 2, dashWs, digN 2]) := by
  simp only [cats, REonly, dashWs]
  exact ⟨REonly_digN 2, fun c hc => dashWs_noLetter hc, REonly_digN 2,
    fun c hc => dashWs_noLetter hc, REonly_digN 2⟩

theorem REonly_sep44 :
    REonly noLetter (cats [digN 4, dashWs, digN 4]) := by
  simp only [cats, REonly, dashWs]
  exact ⟨REonly_digN 4, fun c hc => dashWs_noLetter hc, REonly_digN 4⟩

theorem processCode_no_letter {cs code : List Char}
    (h : ∀ c ∈ cs, noLetter c = true)
    (hp : processCode cs = some code) :
    code.all Char.isDigit = true ∧ 4 ≤ code.length ∧ code.length ≤ 8 := by
  have hfil : cs.filter (fun c => c.isAlpha || c.isDigit) =
      cs.filter Char.isDigit := by
    apply List.filter_congr
    intro c hc
    have hl := h c hc
    simp only [noLetter, Bool.not_eq_true'] at hl
    simp [hl]
  unfold processCode at hp
  rw [hfil] at hp
  dsimp only at hp
  split at hp
  · cases hp
  · split at hp
    · rename_i hcond
      cases hp
      simp only [Bool.and_eq_true, decide_eq_true_eq] at hcond
      refine ⟨?_, hcond.1.1, hcond.1.2⟩
      rw [List.all_eq_true]
      intro c hc
      exact List.of_mem_filter hc
    · cases hp

theorem runTier_digits :
    ∀ (pats : List Pat) (fuel : Nat) (s code : List Char),
      (∀ p ∈ pats, REonly noLetter p.grp) →
      runTier fuel pats s = some code →
      code.all Char.isDigit = true ∧ 4 ≤ code.length ∧ code.length ≤ 8 := by
  intro pats
  induction pats with
  | nil =>
    intro fuel s code _ h
    simp [runTier] at h
  | cons p rest ih =>
    intro fuel s code hp h
    have hrest := fun q hq => hp q (List.mem_cons_of_mem _ hq)
    simp only [runTier] at h
    cases hs : searchPat (s.length + 1) fuel p none s with
    | none =>
      simp only [hs] at h
      exact ih fuel s code hrest h
    | some r =>
      simp only [hs] at h
      split at h
      · exact ih fuel s code hrest h
      · cases hpc : processCode r.1 with
        | none =>
          simp only [hpc] at h
          exact ih fuel s code hrest h
        | some code2 =>
          simp only [hpc] at h
          cases h
          have hchars := searchPat_chars
            (hp p (List.mem_cons_self _ _)) (s.length + 1) none s r hs
          exact processCode_no_letter hchars hpc

theorem firstValid_digits :
    ∀ (caps : List (List Char)) (code : List Char),
      (∀ cap ∈ caps, ∀ c ∈ cap, noLetter c = true) →
      firstValid caps = some code →
      code.all Char.isDigit = true ∧ 4 ≤ code.length ∧ code.length ≤ 8 := by
  intro caps
  induction caps with
  | nil =>
    intro code _ h
    simp [firstValid] at h
  | cons cap rest ih =>
    intro code hc h
    simp only [firstValid] at h
    cases hpc : processCode cap with
    | none =>
      simp only [hpc] at h
      exact ih code (fun q hq => hc q (List.mem_cons_of_mem _ hq)) h
    | some code2 =>
      simp only [hpc] at h
      cases h
      exact processCode_no_letter (hc cap (List.mem_cons_self _ _)) hpc

theorem tier6go_digits :
    ∀ (phrases : List String) (fuel : Nat) (clean code : List Char),
      tier6go fuel clean phrases = some code →
      code.all Char.isDigit = true ∧ 4 ≤ code.length ∧ code.length ≤ 8 := by
  intro phrases
  induction phrases with
  | nil =>
    intro fuel clean code h
    simp [tier6go] at h
  | cons ph rest ih =>
    intro fuel clean code h
    simp only [tier6go] at h
    cases hi : indexOfSub ph.data (clean.map Char.toLower) with
    | none =>
      simp only [hi] at h
      exact ih fuel clean code h
    | some i =>
      simp only [hi] at h
      cases hfv : firstValid
          (searchAllPat (((clean.drop i).take 400).length + 1) fuel barePat
            none ((clean.drop i).take 400)) with
      | none =>
        simp only [hfv] at h
        exact ih fuel clean code h
      | some code2 =>
        simp only [hfv] at h
        cases h
        refine firstValid_digits _ _ ?_ hfv
        intro cap hcap
        exact searchAllPat_chars REonly_dig48 _ none _ cap hcap

theorem tier7go_digits :
    ∀ (lens : List Nat) (fuel : Nat) (clean code : List Char),
      tier7go fuel clean lens = some code →
      code.all Char.isDigit = true ∧ 4 ≤ code.length ∧ code.length ≤ 8 := by
  intro lens
  induction lens with
  | nil =>
    intro fuel clean code h
    simp [tier7go] at h
  | cons len rest ih =>
    intro fuel clean code h
    simp only [tier7go] at h
    cases hfv : firstValid
        (searchAllPat (clean.length + 1) fuel (lenPat len) none clean) with
    | none =>
      simp only [hfv] at h
      exact ih fuel clean code h
    | some code2 =>
      simp only [hfv] at h
      cases h
      refine firstValid_digits _ _ ?_ hfv
      intro cap hcap
      exact searchAllPat_chars (REonly_digN len) _ none _ cap hcap

theorem tierGrps_explicit : ∀ p ∈ explicitPatterns, REonly noLetter p.grp := by
  intro p hp
  simp only [explicitPatterns, List.mem_cons, List.mem_singleton,
    List.not_mem_nil, or_false] at hp
  rcases hp with rfl | rfl | rfl | rfl | rfl | rfl | rfl <;>
    exact REonly_dig48

theorem tierGrps_formatted :
    ∀ p ∈ formattedPatterns, REonly noLetter p.grp := by
  intro p hp
  simp only [formattedPatterns, List.mem_cons, List.mem_singleton,
    List.not_mem_nil, or_false] at hp
  rcases hp with rfl | rfl
  · exact REonly_sep33
  · exact REonly_sep222

theorem tierGrps_quoted : ∀ p ∈ quotedPatterns, REonly noLetter p.grp := by
  intro p hp
  simp only [quotedPatterns, List.mem_cons, List.mem_singleton,
    List.not_mem_nil, or_false] at hp
  rcases hp with rfl | rfl | rfl <;> exact REonly_dig48

theorem tierGrps_context : ∀ p ∈ contextPatterns, REonly noLetter p.grp := by
  intro p hp
  simp only [contextPatterns, List.mem_cons, List.mem_singleton,
    List.not_mem_nil, or_false] at hp
  rcases hp with rfl | rfl | rfl | rfl | rfl | rfl | rfl | rfl | rfl <;>
    exact REonly_dig48

theorem tierGrps_standalone :
    ∀ p ∈ standaloneFormatted, REonly noLetter p.grp := by
  intro p hp
  simp only [standaloneFormatted, List.mem_cons, List.mem_singleton,
    List.not_mem_nil, or_false] at hp
  rcases hp with rfl | rfl | rfl
  · exact REonly_sep33
  · exact REonly_sep222
  · exact REonly_sep44

theorem extractFromClean_digits (clean : List Char) (r : OTPResult)
    (h : extractFromClean clean = some r) :
    r.code.all Char.isDigit = true ∧ 4 ≤ r.code.length ∧
      r.code.length ≤ 8 := by
  unfold extractFromClean at h
  split at h
  · cases h
  · dsimp only at h
    cases h1 : runTier (extractFuel clean) explicitPatterns clean with
    | some code =>
      simp only [h1] at h
      cases h
      exact runTier_digits _ _ _ _ tierGrps_explicit h1
    | none =>
    simp only [h1] at h
    cases h2 : runTier (extractFuel clean) formattedPatterns clean with
    | some code =>
      simp only [h2] at h
      cases h
      exact runTier_digits _ _ _ _ tierGrps_formatted h2
    | none =>
    simp only [h2] at h
    cases h3 : runTier (extractFuel clean) quotedPatterns clean with
    | some code =>
      simp only [h3] at h
      cases h
      exact runTier_digits _ _ _ _ tierGrps_quoted h3
    | none =>
    simp only [h3] at h
    cases h4 : runTier (extractFuel clean) contextPatterns clean with
    | some code =>
      simp only [h4] at h
      cases h
      exact runTier_digits _ _ _ _ tierGrps_context h4
    | none =>
    simp only [h4] at h
    cases h5 : runTier (extractFuel clean) standaloneFormatted clean with
    | some code =>
      simp only [h5] at h
      cases h
      exact runTier_digits _ _ _ _ tierGrps_standalone h5
    | none =>
    simp only [h5] at h
    cases h6 : tier6go (extractFuel clean) clean priorityPhrases with
    | some code =>
      simp only [h6] at h
      cases h
      exact tier6go_digits _ _ _ _ h6
    | none =>
    simp only [h6] at h
    cases h7 : tier7go (extractFuel clean) clean fallbackLengths with
    | some code =>
      simp only [h7] at h
      cases h
      exact tier7go_digits _ _ _ _ h7
    | none =>
      simp only [h7] at h
      cases h

/-- C10: every code the extraction pipeline can emit consists solely of
digits and has length 4-8: every capture group in all seven tiers
consumes only letter-free characters, so the resolver's alphanumeric
branch coincides with the numeric branch and only digit strings are
returned. -/
theorem C10_extraction_numeric_only :
    (∀ t r, extractOTP t = some r →
      r.code.all Char.isDigit = true ∧ 4 ≤ r.code.length ∧
        r.code.length ≤ 8) ∧
    (∀ subj body r, extractOTPFromEmail subj body = some r →
      r.code.all Char.isDigit = true ∧ 4 ≤ r.code.length ∧
        r.code.length ≤ 8) := by
  have hmain : ∀ t r, extractOTP t = some r →
      r.code.all Char.isDigit = true ∧ 4 ≤ r.code.length ∧
        r.code.length ≤ 8 := by
    intro t r h
    match t with
    | none => cases h
    | some s =>
      simp only [extractOTP] at h
      split at h
      · cases h
      · exact extractFromClean_digits _ _ h
  refine ⟨hmain, ?_⟩
  intro subj body r h
  unfold extractOTPFromEmail at h
  cases hsub : (if strTruthy subj then extractOTP subj else none) with
  | some r0 =>
    simp only [hsub] at h
    cases h
    have hx : extractOTP subj = some r0 := by
      by_cases hst : strTruthy subj
      · rw [if_pos hst] at hsub
        exact hsub
      · rw [if_neg hst] at hsub
        cases hsub
    exact hmain subj r0 hx
  | none =>
    simp only [hsub] at h
    cases hbod : (if strTruthy body then extractOTP body else none) with
    | some r0 =>
      simp only [hbod] at h
      cases h
      have hx : extractOTP body = some r0 := by
        by_cases hst : strTruthy body
        · rw [if_pos hst] at hbod
          exact hbod
        · rw [if_neg hst] at hbod
          cases hbod
      exact hmain body r0 hx
    | none =>
      simp only [hbod] at h
      cases h

/-- Witness for C10 at scenario B's body text: the emitted code 581902
is all digits of length 6. -/
theorem C10_extraction_numeric_only_witness :
    "581902".data.all Char.isDigit = true ∧ 4 ≤ "581902".data.length ∧
      "581902".data.length ≤ 8 := by
  have hcb : cleanText
      "Thanks for signing in. Your verification code: 58-19-02".data =
      "Thanks for signing in. Your verification code: 58-19-02".data :=
    cleanNormal_fix _ (by decide)
  have hbody : extractOTP
      (some "Thanks for signing in. Your verification code: 58-19-02") =
      some ⟨"581902".data, Confidence.high⟩ := by
    simp only [extractOTP]
    rw [if_neg (by decide), hcb]
    decide
  exact C10_extraction_numeric_only.1 _ _ hbody

/-!  ## Shape-occurrence transfer across the normalizer stages
(claim C8) -/

theorem leadMatch_iff_append {w x : List Char} :
    leadMatch w x = true ↔ ∃ t, x = w ++ t := by
  induction w generalizing x with
  | nil =>
    simp [leadMatch]
  | cons p ps ih =>
    match x with
    | [] =>
      simp [leadMatch]
    | c :: cs =>
      simp only [leadMatch, Bool.and_eq_true, decide_eq_true_eq, ih,
        List.cons_append, List.cons.injEq]
      constructor
      · rintro ⟨rfl, t, rfl⟩
        exact ⟨t, rfl, rfl⟩
      · rintro ⟨t, rfl, rfl⟩
        exact ⟨rfl, t, rfl⟩

theorem leadMatch_eq_leadPred :
    ∀ (w x : List Char),
      leadMatch w x = leadPred (w.map (fun wc => fun c => c = wc)) x := by
  intro w
  induction w with
  | nil =>
    intro x
    rfl
  | cons p ps ih =>
    intro x
    match x with
    | [] => rfl
    | c :: cs =>
      simp only [leadMatch, List.map_cons, leadPred, ih cs]
      by_cases h : p = c
      · simp [h]
      · have h2 : ¬c = p := fun hh => h hh.symm
        simp [h, h2]

theorem leadMatch_lower :
    ∀ (pat x : List Char),
      leadMatch pat ((x.take pat.length).map Char.toLower) =
        leadPred (pat.map (fun pc => fun c => Char.toLower c = pc)) x := by
  intro pat
  induction pat with
  | nil =>
    intro x
    rfl
  | cons p ps ih =>
    intro x
    match x with
    | [] => rfl
    | c :: cs =>
      simp only [List.length_cons, List.take_succ_cons, List.map_cons,
        leadMatch, leadPred, ih cs]
      by_cases h : p = Char.toLower c
      · simp [h]
      · have h2 : ¬Char.toLower c = p := fun hh => h hh.symm
        simp [h, h2]

theorem matchesNbsp_eq_leadPred (x : List Char) :
    matchesNbsp x = leadPred nbspPreds x := by
  have h6 : ("&nbsp;".data).length = 6 := rfl
  rw [matchesNbsp, nbspPreds, ← h6, leadMatch_lower]

theorem nbspPreds_reject_ws :
    ∀ p ∈ nbspPreds, ∀ c, jsWs c = true → p c = false := by
  intro p hp c hc
  simp only [nbspPreds, List.map_cons, List.mem_cons, List.map_nil,
    List.not_mem_nil, or_false] at hp
  have hlow : Char.toLower c = c := by
    unfold Char.toLower
    have h1 : ¬(65 ≤ c.toNat ∧ c.toNat ≤ 90) := by
      intro hr
      rw [jsWs_eq_false_of_range (by omega) (by omega)] at hc
      cases hc
    rw [if_neg (by omega)]
  rcases hp with rfl | rfl | rfl | rfl | rfl | rfl <;>
    · simp only [hlow, decide_eq_false_iff_not]
      intro he
      subst he
      simp [jsWs] at hc

theorem stripNbsp_leadPred :
    ∀ l (ps : List (Char → Bool)), (∀ p ∈ ps, p ' ' = false) →
      leadPred ps (stripNbsp l) = true → leadPred ps l = true := by
  intro l
  induction l using stripNbsp.induct with
  | case1 =>
    intro ps hps h
    simp only [stripNbsp] at h
    exact h
  | case2 c rest hm ih =>
    intro ps hps h
    simp only [stripNbsp] at h
    rw [if_pos hm] at h
    match ps, h with
    | [], _ => rfl
    | p :: ps2, h =>
      exfalso
      simp only [leadPred, Bool.and_eq_true] at h
      rw [hps p (List.mem_cons_self _ _)] at h
      exact absurd h.1 (by simp)
  | case3 c rest hm ih =>
    intro ps hps h
    simp only [stripNbsp] at h
    rw [if_neg (by simpa using hm)] at h
    match ps, h with
    | [], _ => rfl
    | p :: ps2, h =>
      simp only [leadPred, Bool.and_eq_true] at h ⊢
      exact ⟨h.1, ih ps2 (fun q hq => hps q (List.mem_cons_of_mem _ hq))
        h.2⟩

theorem stripEnt_leadPred :
    ∀ l (ps : List (Char → Bool)), (∀ p ∈ ps, p ' ' = false) →
      leadPred ps (stripEnt l) = true → leadPred ps l = true := by
  intro l
  induction l using stripEnt.induct with
  | case1 rest hemp ih =>
    intro ps hps h
    simp only [stripEnt] at h
    rw [if_pos hemp] at h
    match ps, h with
    | [], _ => rfl
    | p :: ps2, h =>
      simp only [leadPred, Bool.and_eq_true] at h ⊢
      exact ⟨h.1, ih ps2 (fun q hq => hps q (List.mem_cons_of_mem _ hq))
        h.2⟩
  | case2 rest hemp r2 hdw ih =>
    intro ps hps h
    simp only [stripEnt] at h
    rw [if_neg (by simpa using hemp)] at h
    split at h
    · match ps, h with
      | [], _ => rfl
      | p :: ps2, h =>
        exfalso
        simp only [leadPred, Bool.and_eq_true] at h
        rw [hps p (List.mem_cons_self _ _)] at h
        exact absurd h.1 (by simp)
    · simp_all
  | case3 rest hemp hne ih =>
    intro ps hps h
    simp only [stripEnt] at h
    rw [if_neg (by simpa using hemp)] at h
    match ps, h with
    | [], _ => rfl
    | p :: ps2, h =>
      simp only [leadPred, Bool.and_eq_true] at h ⊢
      exact ⟨h.1, ih ps2 (fun q hq => hps q (List.mem_cons_of_mem _ hq))
        h.2⟩
  | case4 c rest hne ih =>
    intro ps hps h
    simp only [stripEnt] at h
    match ps, h with
    | [], _ => rfl
    | p :: ps2, h =>
      simp only [leadPred, Bool.and_eq_true] at h ⊢
      exact ⟨h.1, ih ps2 (fun q hq => hps q (List.mem_cons_of_mem _ hq))
        h.2⟩
  | case5 =>
    intro ps hps h
    simp only [stripEnt] at h
    exact h

theorem collapseWs_ws_head :
    ∀ (rest : List Char) (d : Char), jsWs d = true →
      ∃ Y, collapseWs (d :: rest) = ' ' :: Y := by
  intro rest
  induction rest with
  | nil =>
    intro d hd
    refine ⟨[], ?_⟩
    simp only [collapseWs]
    rw [if_pos hd]
  | cons e rest2 ih =>
    intro d hd
    by_cases he : jsWs e
    · obtain ⟨Y, hY⟩ := ih e he
      refine ⟨Y, ?_⟩
      simp only [collapseWs]
      rw [if_pos hd, if_pos he, hY]
    · refine ⟨collapseWs (e :: rest2), ?_⟩
      simp only [collapseWs]
      rw [if_pos hd, if_neg he]

theorem collapseWs_leadPred :
    ∀ l (ps : List (Char → Bool)),
      (∀ p ∈ ps, ∀ c, jsWs c = true → p c = false) →
      leadPred ps (collapseWs l) = true → leadPred ps l = true := by
  intro l
  induction l using collapseWs.induct with
  | case1 =>
    intro ps hps h
    simpa [collapseWs] using h
  | case2 c hws =>
    intro ps hps h
    simp only [collapseWs] at h
    rw [if_pos hws] at h
    match ps, h with
    | [], _ => rfl
    | p :: ps2, h =>
      exfalso
      simp only [leadPred, Bool.and_eq_true] at h
      rw [hps p (List.mem_cons_self _ _) ' ' (by simp [jsWs])] at h
      exact absurd h.1 (by simp)
  | case3 c hws =>
    intro ps hps h
    simp only [collapseWs] at h
    rw [if_neg hws] at h
    exact h
  | case4 c d rest hwc hwd ih =>
    intro ps hps h
    simp only [collapseWs] at h
    rw [if_pos hwc, if_pos hwd] at h
    obtain ⟨Y, hY⟩ := collapseWs_ws_head rest d hwd
    rw [hY] at h
    match ps, h with
    | [], _ => rfl
    | p :: ps2, h =>
      exfalso
      simp only [leadPred, Bool.and_eq_true] at h
      rw [hps p (List.mem_cons_self _ _) ' ' (by simp [jsWs])] at h
      exact absurd h.1 (by simp)
  | case5 c d rest hwc hwd ih =>
    intro ps hps h
    simp only [collapseWs] at h
    rw [if_pos hwc, if_neg hwd] at h
    match ps, h with
    | [], _ => rfl
    | p :: ps2, h =>
      exfalso
      simp only [leadPred, Bool.and_eq_true] at h
      rw [hps p (List.mem_cons_self _ _) ' ' (by simp [jsWs])] at h
      exact absurd h.1 (by simp)
  | case6 c d rest hwc ih =>
    intro ps hps h
    simp only [collapseWs] at h
    rw [if_neg hwc] at h
    match ps, h with
    | [], _ => rfl
    | p :: ps2, h =>
      simp only [leadPred, Bool.and_eq_true] at h ⊢
      exact ⟨h.1, ih ps2 (fun q hq => hps q (List.mem_cons_of_mem _ hq))
        h.2⟩

theorem collapseWs_leadMatch {w : List Char}
    (hw : ∀ ch ∈ w, jsWs ch = false) :
    ∀ l, leadMatch w (collapseWs l) = true → leadMatch w l = true := by
  intro l h
  rw [leadMatch_eq_leadPred] at h ⊢
  refine collapseWs_leadPred l _ ?_ h
  intro p hp c hc
  rw [List.mem_map] at hp
  obtain ⟨wc, hwc, rfl⟩ := hp
  simp only [decide_eq_false_iff_not]
  intro he
  subst he
  rw [hw c hwc] at hc
  cases hc

theorem stripEnt_leadMatch {w : List Char}
    (hw : ∀ ch ∈ w, ¬ch = ' ') :
    ∀ l, leadMatch w (stripEnt l) = true → leadMatch w l = true := by
  intro l h
  rw [leadMatch_eq_leadPred] at h ⊢
  refine stripEnt_leadPred l _ ?_ h
  intro p hp
  rw [List.mem_map] at hp
  obtain ⟨wc, hwc, rfl⟩ := hp
  simp only [decide_eq_false_iff_not]
  intro he
  exact hw wc hwc he.symm

/-!  ## Suffix bookkeeping for the normal-form predicates -/

theorem everySuffix_nilTrue {p : List Char → Bool} :
    ∀ l, everySuffix p l = true → p [] = true := by
  intro l
  induction l with
  | nil =>
    intro h
    simpa [everySuffix] using h
  | cons c rest ih =>
    intro h
    simp only [everySuffix, Bool.and_eq_true] at h
    exact ih h.2

theorem everySuffix_tail {p : List Char → Bool} {c : Char} {r : List Char}
    (h : everySuffix p (c :: r) = true) : everySuffix p r = true := by
  simp only [everySuffix, Bool.and_eq_true] at h
  exact h.2

theorem everySuffix_head {p : List Char → Bool} {c : Char} {r : List Char}
    (h : everySuffix p (c :: r) = true) : p (c :: r) = true := by
  simp only [everySuffix, Bool.and_eq_true] at h
  exact h.1

theorem everySuffix_drop {p : List Char → Bool} :
    ∀ (n : Nat) (l : List Char), everySuffix p l = true →
      everySuffix p (l.drop n) = true := by
  intro n
  induction n with
  | zero =>
    intro l h
    exact h
  | succ m ih =>
    intro l h
    match l with
    | [] => exact h
    | c :: r => exact ih r (everySuffix_tail h)

theorem everySuffix_dropWhile {p : List Char → Bool} (q : Char → Bool) :
    ∀ l, everySuffix p l = true → everySuffix p (l.dropWhile q) = true := by
  intro l
  induction l with
  | nil =>
    intro h
    exact h
  | cons c r ih =>
    intro h
    rw [List.dropWhile_cons]
    by_cases hq : q c
    · rw [if_pos hq]
      exact ih (everySuffix_tail h)
    · rw [if_neg hq]
      exact h

theorem leadPred_append {b : List Char} :
    ∀ (ps : List (Char → Bool)) (s : List Char),
      leadPred ps s = true → leadPred ps (s ++ b) = true := by
  intro ps
  induction ps with
  | nil =>
    intro s h
    rfl
  | cons p ps2 ih =>
    intro s h
    match s with
    | [] => simp [leadPred] at h
    | c :: cs =>
      simp only [List.cons_append, leadPred, Bool.and_eq_true] at h ⊢
      exact ⟨h.1, ih cs h.2⟩

theorem matchesNbsp_append {s b : List Char}
    (h : matchesNbsp s = true) : matchesNbsp (s ++ b) = true := by
  rw [matchesNbsp_eq_leadPred] at h ⊢
  exact leadPred_append _ s h

theorem tagHere_append {s b : List Char} (h : tagHere s = true) :
    tagHere (s ++ b) = true := by
  match s with
  | [] => simp [tagHere] at h
  | [c] => simp [tagHere] at h
  | c :: d :: r => simpa [tagHere] using h

/-- The first character test of the entity rules out any starting
character whose lowercase form is not the ampersand. -/
theorem matchesNbsp_cons_ne {c : Char} (hc : ¬Char.toLower c = '&') :
    ∀ X, matchesNbsp (c :: X) = false := by
  intro X
  rw [matchesNbsp_eq_leadPred]
  have hd : "&nbsp;".data = ['&', 'n', 'b', 's', 'p', ';'] := rfl
  rw [nbspPreds, hd]
  simp [leadPred, hc]

/-!  ## Head-shape equations for the pipeline stages -/

theorem stripNbsp_cons_match {c : Char} {rest : List Char}
    (hm : matchesNbsp (c :: rest) = true) :
    stripNbsp (c :: rest) = ' ' :: stripNbsp (rest.drop 5) := by
  simp only [stripNbsp]
  rw [if_pos hm]

theorem stripNbsp_cons_not {c : Char} {rest : List Char}
    (hm : matchesNbsp (c :: rest) = false) :
    stripNbsp (c :: rest) = c :: stripNbsp rest := by
  simp only [stripNbsp]
  rw [if_neg (by simp [hm])]

theorem stripEnt_cons_ne {c : Char} {rest : List Char} (hc : ¬c = '&') :
    stripEnt (c :: rest) = c :: stripEnt rest := by
  rw [stripEnt.eq_def]
  split
  · rename_i rest' heq
    injection heq with h1 _
    exact absurd h1 hc
  · rename_i c' rest' heq
    injection heq with h1 h2
    rw [← h1, ← h2]
  · rename_i heq
    simp at heq

theorem stripTags_cons_ne {c : Char} {rest : List Char} (hc : ¬c = '<') :
    stripTags (c :: rest) = c :: stripTags rest := by
  rw [stripTags.eq_def]
  split
  · rename_i heq
    simp at heq
  · rename_i rest' heq
    injection heq with h1 _
    exact absurd h1 hc
  · rename_i c' rest' heq
    injection heq with h1 h2
    rw [← h1, ← h2]

theorem collapseWs_cons_not_ws {c : Char} (hc : jsWs c = false) :
    ∀ rest, ∃ Y, collapseWs (c :: rest) = c :: Y := by
  intro rest
  match rest with
  | [] =>
    refine ⟨[], ?_⟩
    simp only [collapseWs]
    rw [if_neg (by simp [hc])]
  | d :: r2 =>
    refine ⟨collapseWs (d :: r2), ?_⟩
    simp only [collapseWs]
    rw [if_neg (by simp [hc])]

theorem dropWhile_head_false {p : Char → Bool} :
    ∀ (l : List Char) {c : Char} {r : List Char},
      l.dropWhile p = c :: r → p c = false := by
  intro l
  induction l with
  | nil =>
    intro c r h
    simp at h
  | cons a l2 ih =>
    intro c r h
    rw [List.dropWhile_cons] at h
    by_cases ha : p a
    · rw [if_pos ha] at h
      exact ih h
    · rw [if_neg ha] at h
      injection h with h1 _
      rw [← h1]
      simpa using ha

/-!  ## Shape of the numeric-entity predicate -/

theorem takeWhile_all_eq {p : Char → Bool} :
    ∀ (ds : List Char) (x : Char) (r : List Char),
      ds.all p = true → p x = false →
      (ds ++ x :: r).takeWhile p = ds ∧ (ds ++ x :: r).dropWhile p = x :: r := by
  intro ds
  induction ds with
  | nil =>
    intro x r _ hx
    constructor
    · simp [List.takeWhile_cons, hx]
    · simp [List.dropWhile_cons, hx]
  | cons d ds2 ih =>
    intro x r hall hx
    simp only [List.all_cons, Bool.and_eq_true] at hall
    obtain ⟨h1, h2⟩ := hall
    have hrec := ih x r h2 hx
    constructor
    · simp [List.takeWhile_cons, h1, hrec.1]
    · simp [List.dropWhile_cons, h1, hrec.2]

theorem takeWhile_self_all {p : Char → Bool} :
    ∀ l : List Char, (l.takeWhile p).all p = true := by
  intro l
  induction l with
  | nil => rfl
  | cons c r ih =>
    rw [List.takeWhile_cons]
    by_cases hc : p c
    · rw [if_pos hc]
      simp [List.all_cons, hc, ih]
    · rw [if_neg hc]
      rfl

theorem entHere_shape {s : List Char} (h : entHere s = true) :
    ∃ ds r, ds ≠ [] ∧ ds.all Char.isDigit = true ∧
      s = '&' :: '#' :: (ds ++ ';' :: r) := by
  rw [entHere.eq_def] at h
  split at h
  · rename_i rest
    simp only [Bool.and_eq_true] at h
    obtain ⟨h1, h2⟩ := h
    cases hdw : rest.dropWhile Char.isDigit with
    | nil =>
      simp only [hdw] at h2
      exact Bool.noConfusion h2
    | cons x r2 =>
      simp only [hdw] at h2
      by_cases hx : x = ';'
      · subst hx
        refine ⟨rest.takeWhile Char.isDigit, r2, ?_, takeWhile_self_all rest, ?_⟩
        · intro he
          rw [he] at h1
          simp at h1
        · have hsplit : rest.takeWhile Char.isDigit ++
              rest.dropWhile Char.isDigit = rest := by
            rw [List.takeWhile_append_dropWhile]
          have hres : rest = rest.takeWhile Char.isDigit ++ ';' :: r2 := by
            conv_lhs => rw [← hsplit]
            rw [hdw]
          conv_lhs => rw [hres]
      · exfalso
        split at h2
        · rename_i r3 heq
          injection heq with hxe _
          exact hx hxe
        · exact Bool.noConfusion h2
  · exact Bool.noConfusion h

theorem entHere_of_shape {ds r : List Char} (hne : ds ≠ [])
    (hdig : ds.all Char.isDigit = true) :
    entHere ('&' :: '#' :: (ds ++ ';' :: r)) = true := by
  have hsemi : Char.isDigit ';' = false := by decide
  have ht := takeWhile_all_eq ds ';' r hdig hsemi
  have hemp : (ds ++ ';' :: r).takeWhile Char.isDigit ≠ [] := by
    rw [ht.1]
    exact hne
  simp only [entHere, ht.1, ht.2]
  have : ds.isEmpty = false := by
    cases ds with
    | nil => exact absurd rfl hne
    | cons a b => rfl
  simp [this]

theorem entHere_cons_ne {c : Char} (hc : ¬c = '&') :
    ∀ X, entHere (c :: X) = false := by
  intro X
  cases he : entHere (c :: X) with
  | false => rfl
  | true =>
    obtain ⟨ds, r, _, _, heq⟩ := entHere_shape he
    injection heq with h1 _
    exact absurd h1 hc

theorem entHere_append {s b : List Char} (h : entHere s = true) :
    entHere (s ++ b) = true := by
  obtain ⟨ds, r, hne, hdig, rfl⟩ := entHere_shape h
  have hre : ('&' :: '#' :: (ds ++ ';' :: r)) ++ b =
      '&' :: '#' :: (ds ++ ';' :: (r ++ b)) := by simp
  rw [hre]
  exact entHere_of_shape hne hdig

/-!  ## Per-stage preservation of suffix properties

If a head occurrence of the shape `Q` in a stage's output forces one in
its input, then absence of `Q` at every suffix survives the stage. -/

theorem stripNbsp_everySuffix {Q : List Char → Bool}
    (HQ : ∀ l, Q (stripNbsp l) = true → Q l = true) :
    ∀ l, everySuffix (fun s => !Q s) l = true →
      everySuffix (fun s => !Q s) (stripNbsp l) = true := by
  intro l
  induction l using stripNbsp.induct with
  | case1 =>
    intro h
    simp only [stripNbsp]
    exact h
  | case2 c rest hm ih =>
    intro h
    rw [stripNbsp_cons_match hm]
    simp only [everySuffix, Bool.and_eq_true]
    refine ⟨?_, ih (everySuffix_drop 5 rest (everySuffix_tail h))⟩
    rw [Bool.not_eq_true']
    cases hq : Q (' ' :: stripNbsp (rest.drop 5)) with
    | false => rfl
    | true =>
      exfalso
      have h2 : Q (stripNbsp (c :: rest)) = true := by
        rw [stripNbsp_cons_match hm]
        exact hq
      have h3 := HQ _ h2
      have h4 := everySuffix_head h
      rw [h3] at h4
      exact absurd h4 (by simp)
  | case3 c rest hm ih =>
    intro h
    rw [stripNbsp_cons_not (by simpa using hm)]
    simp only [everySuffix, Bool.and_eq_true]
    refine ⟨?_, ih (everySuffix_tail h)⟩
    rw [Bool.not_eq_true']
    cases hq : Q (c :: stripNbsp rest) with
    | false => rfl
    | true =>
      exfalso
      have h2 : Q (stripNbsp (c :: rest)) = true := by
        rw [stripNbsp_cons_not (by simpa using hm)]
        exact hq
      have h3 := HQ _ h2
      have h4 := everySuffix_head h
      rw [h3] at h4
      exact absurd h4 (by simp)

theorem stripEnt_everySuffix {Q : List Char → Bool}
    (HQ : ∀ l, Q (stripEnt l) = true → Q l = true) :
    ∀ l, everySuffix (fun s => !Q s) l = true →
      everySuffix (fun s => !Q s) (stripEnt l) = true := by
  intro l
  induction l using stripEnt.induct with
  | case1 rest hemp ih =>
    intro h
    have heqn : stripEnt ('&' :: '#' :: rest) = '&' :: stripEnt ('#' :: rest) := by
      simp only [stripEnt]
      rw [if_pos hemp]
    rw [heqn]
    simp only [everySuffix, Bool.and_eq_true]
    refine ⟨?_, ih (everySuffix_tail h)⟩
    rw [Bool.not_eq_true']
    cases hq : Q ('&' :: stripEnt ('#' :: rest)) with
    | false => rfl
    | true =>
      exfalso
      have h3 := HQ _ (by rw [heqn]; exact hq)
      have h4 := everySuffix_head h
      rw [h3] at h4
      exact absurd h4 (by simp)
  | case2 rest hemp r2 hdw ih =>
    intro h
    have heqn : stripEnt ('&' :: '#' :: rest) = ' ' :: stripEnt r2 := by
      simp only [stripEnt]
      rw [if_neg (by simpa using hemp)]
      split
      · rename_i r3 heq
        rw [hdw] at heq
        injection heq with _ h2
        rw [h2]
      · exfalso
        simp_all
    rw [heqn]
    simp only [everySuffix, Bool.and_eq_true]
    have hr2 : everySuffix (fun s => !Q s) r2 = true := by
      have t1 := everySuffix_tail (everySuffix_tail h)
      have t2 := everySuffix_dropWhile Char.isDigit rest t1
      rw [hdw] at t2
      exact everySuffix_tail t2
    refine ⟨?_, ih hr2⟩
    rw [Bool.not_eq_true']
    cases hq : Q (' ' :: stripEnt r2) with
    | false => rfl
    | true =>
      exfalso
      have h3 := HQ _ (by rw [heqn]; exact hq)
      have h4 := everySuffix_head h
      rw [h3] at h4
      exact absurd h4 (by simp)
  | case3 rest hemp hne ih =>
    intro h
    have heqn : stripEnt ('&' :: '#' :: rest) = '&' :: stripEnt ('#' :: rest) := by
      simp only [stripEnt]
      rw [if_neg (by simpa using hemp)]
    rw [heqn]
    simp only [everySuffix, Bool.and_eq_true]
    refine ⟨?_, ih (everySuffix_tail h)⟩
    rw [Bool.not_eq_true']
    cases hq : Q ('&' :: stripEnt ('#' :: rest)) with
    | false => rfl
    | true =>
      exfalso
      have h3 := HQ _ (by rw [heqn]; exact hq)
      have h4 := everySuffix_head h
      rw [h3] at h4
      exact absurd h4 (by simp)
  | case4 c rest hne ih =>
    intro h
    have heqn : stripEnt (c :: rest) = c :: stripEnt rest := by
      simp only [stripEnt]
    rw [heqn]
    simp only [everySuffix, Bool.and_eq_true]
    refine ⟨?_, ih (everySuffix_tail h)⟩
    rw [Bool.not_eq_true']
    cases hq : Q (c :: stripEnt rest) with
    | false => rfl
    | true =>
      exfalso
      have h3 := HQ _ (by rw [heqn]; exact hq)
      have h4 := everySuffix_head h
      rw [h3] at h4
      exact absurd h4 (by simp)
  | case5 =>
    intro h
    simp only [stripEnt]
    exact h

theorem collapseWs_everySuffix {Q : List Char → Bool}
    (HQ : ∀ l, Q (collapseWs l) = true → Q l = true) :
    ∀ l, everySuffix (fun s => !Q s) l = true →
      everySuffix (fun s => !Q s) (collapseWs l) = true := by
  intro l
  induction l using collapseWs.induct with
  | case1 =>
    intro h
    simp only [collapseWs]
    exact h
  | case2 c hws =>
    intro h
    have heqn : collapseWs [c] = [' '] := by
      simp only [collapseWs]
      rw [if_pos hws]
    rw [heqn]
    simp only [everySuffix, Bool.and_eq_true]
    refine ⟨?_, ?_⟩
    · rw [Bool.not_eq_true']
      cases hq : Q [' '] with
      | false => rfl
      | true =>
        exfalso
        have h3 := HQ [c] (by rw [heqn]; exact hq)
        have h4 := everySuffix_head h
        rw [h3] at h4
        exact absurd h4 (by simp)
    · exact everySuffix_tail h
  | case3 c hws =>
    intro h
    have heqn : collapseWs [c] = [c] := by
      simp only [collapseWs]
      rw [if_neg hws]
    rw [heqn]
    exact h
  | case4 c d rest hwc hwd ih =>
    intro h
    have heqn : collapseWs (c :: d :: rest) = collapseWs (d :: rest) := by
      simp only [collapseWs]
      rw [if_pos hwc, if_pos hwd]
    rw [heqn]
    exact ih (everySuffix_tail h)
  | case5 c d rest hwc hwd ih =>
    intro h
    have heqn : collapseWs (c :: d :: rest) = ' ' :: collapseWs (d :: rest) := by
      simp only [collapseWs]
      rw [if_pos hwc, if_neg hwd]
    rw [heqn]
    simp only [everySuffix, Bool.and_eq_true]
    refine ⟨?_, ih (everySuffix_tail h)⟩
    rw [Bool.not_eq_true']
    cases hq : Q (' ' :: collapseWs (d :: rest)) with
    | false => rfl
    | true =>
      exfalso
      have h3 := HQ _ (by rw [heqn]; exact hq)
      have h4 := everySuffix_head h
      rw [h3] at h4
      exact absurd h4 (by simp)
  | case6 c d rest hwc ih =>
    intro h
    have heqn : collapseWs (c :: d :: rest) = c :: collapseWs (d :: rest) := by
      simp only [collapseWs]
      rw [if_neg hwc]
    rw [heqn]
    simp only [everySuffix, Bool.and_eq_true]
    refine ⟨?_, ih (everySuffix_tail h)⟩
    rw [Bool.not_eq_true']
    cases hq : Q (c :: collapseWs (d :: rest)) with
    | false => rfl
    | true =>
      exfalso
      have h3 := HQ _ (by rw [heqn]; exact hq)
      have h4 := everySuffix_head h
      rw [h3] at h4
      exact absurd h4 (by simp)

/-!  ## Prefix closure and the trim stage -/

theorem everySuffix_append_left {Q : List Char → Bool}
    (hQ : ∀ s b, Q s = true → Q (s ++ b) = true) :
    ∀ (a b : List Char), everySuffix (fun s => !Q s) (a ++ b) = true →
      everySuffix (fun s => !Q s) a = true := by
  intro a
  induction a with
  | nil =>
    intro b h
    simp only [everySuffix]
    exact everySuffix_nilTrue _ h
  | cons c a2 ih =>
    intro b h
    simp only [everySuffix, Bool.and_eq_true]
    refine ⟨?_, ih b (everySuffix_tail h)⟩
    rw [Bool.not_eq_true']
    cases hq : Q (c :: a2) with
    | false => rfl
    | true =>
      exfalso
      have h2 := hQ (c :: a2) b hq
      have h4 := everySuffix_head h
      simp only [List.append_eq] at h4
      rw [List.cons_append] at h2
      rw [h2] at h4
      exact absurd h4 (by simp)

theorem trimEndWs_rep :
    ∀ l : List Char,
      l = trimEndWs l ++ (l.reverse.takeWhile jsWs).reverse := by
  intro l
  have hsplit : l.reverse.takeWhile jsWs ++ l.reverse.dropWhile jsWs
      = l.reverse := by
    rw [List.takeWhile_append_dropWhile]
  have h2 : trimEndWs l ++ (l.reverse.takeWhile jsWs).reverse
      = (l.reverse.takeWhile jsWs ++ l.reverse.dropWhile jsWs).reverse := by
    rw [List.reverse_append]
    rfl
  rw [h2, hsplit, List.reverse_reverse]

theorem everySuffix_jsTrim {Q : List Char → Bool}
    (hQ : ∀ s b, Q s = true → Q (s ++ b) = true) :
    ∀ l, everySuffix (fun s => !Q s) l = true →
      everySuffix (fun s => !Q s) (jsTrim l) = true := by
  intro l h
  have h1 := everySuffix_dropWhile jsWs l h
  have hrep := trimEndWs_rep (l.dropWhile jsWs)
  simp only [jsTrim]
  have h2 : everySuffix (fun s => !Q s)
      (trimEndWs (l.dropWhile jsWs) ++
        ((l.dropWhile jsWs).reverse.takeWhile jsWs).reverse) = true := by
    rw [← hrep]
    exact h1
  exact everySuffix_append_left hQ _ _ h2

/-!  ## The no-tag-start predicate as a suffix property -/

theorem noTagStart_eq :
    ∀ l, noTagStart l = everySuffix (fun s => !tagHere s) l := by
  intro l
  induction l with
  | nil => rfl
  | cons c rest ih =>
    simp only [noTagStart, everySuffix, ih]
    congr 1
    cases rest with
    | nil =>
      by_cases hc : c = '<' <;> simp [tagHere, hc]
    | cons d r =>
      by_cases hc : c = '<' <;> simp [tagHere, hc]

/-!  ## Head occurrences transfer backwards through each stage -/

theorem nbspPreds_space : ∀ p ∈ nbspPreds, p ' ' = false := by
  intro p hp
  exact nbspPreds_reject_ws p hp ' ' (by simp [jsWs])

theorem matchesNbsp_stripEnt :
    ∀ l, matchesNbsp (stripEnt l) = true → matchesNbsp l = true := by
  intro l h
  rw [matchesNbsp_eq_leadPred] at h ⊢
  exact stripEnt_leadPred l nbspPreds nbspPreds_space h

theorem matchesNbsp_collapseWs :
    ∀ l, matchesNbsp (collapseWs l) = true → matchesNbsp l = true := by
  intro l h
  rw [matchesNbsp_eq_leadPred] at h ⊢
  exact collapseWs_leadPred l nbspPreds nbspPreds_reject_ws h

theorem entHere_collapseWs :
    ∀ l, entHere (collapseWs l) = true → entHere l = true := by
  intro l h
  obtain ⟨ds, r, hne, hdig, heq⟩ := entHere_shape h
  have hlm : leadMatch ('&' :: '#' :: (ds ++ [';'])) (collapseWs l) = true := by
    rw [leadMatch_iff_append]
    exact ⟨r, by rw [heq]; simp⟩
  have hw : ∀ ch ∈ ('&' :: '#' :: (ds ++ [';'])), jsWs ch = false := by
    intro ch hch
    simp only [List.mem_cons, List.mem_append, List.mem_singleton,
      List.not_mem_nil, or_false] at hch
    rcases hch with rfl | rfl | hd | rfl
    · decide
    · decide
    · have hd2 : ch.isDigit = true := by
        rw [List.all_eq_true] at hdig
        exact hdig ch hd
      have hr := isDigit_toNat.mp hd2
      exact jsWs_eq_false_of_range hr.1 (by omega)
    · decide
  have h2 := collapseWs_leadMatch hw l hlm
  rw [leadMatch_iff_append] at h2
  obtain ⟨t, ht⟩ := h2
  rw [ht]
  have hre : ('&' :: '#' :: (ds ++ [';'])) ++ t
      = '&' :: '#' :: (ds ++ ';' :: t) := by simp
  rw [hre]
  exact entHere_of_shape hne hdig

theorem tagHere_stripNbsp :
    ∀ l, tagHere (stripNbsp l) = true → tagHere l = true := by
  intro l h
  match l with
  | [] =>
    rw [show stripNbsp [] = [] by simp only [stripNbsp]] at h
    simp [tagHere] at h
  | c :: rest =>
    cases hm : matchesNbsp (c :: rest) with
    | true =>
      rw [stripNbsp_cons_match hm] at h
      exfalso
      cases hS : stripNbsp (rest.drop 5) with
      | nil => rw [hS] at h; simp [tagHere] at h
      | cons e r2 => rw [hS] at h; simp [tagHere] at h
    | false =>
      rw [stripNbsp_cons_not hm] at h
      cases hS : stripNbsp rest with
      | nil => rw [hS] at h; simp [tagHere] at h
      | cons e r2 =>
        rw [hS] at h
        simp only [tagHere, Bool.and_eq_true, decide_eq_true_eq,
          Bool.not_eq_true', decide_eq_false_iff_not] at h
        obtain ⟨hc, he⟩ := h
        cases rest with
        | nil =>
          rw [show stripNbsp [] = [] by simp only [stripNbsp]] at hS
          simp at hS
        | cons f rest2 =>
          by_cases hf : f = '>'
          · exfalso
            subst hf
            have hm2 : matchesNbsp ('>' :: rest2) = false :=
              matchesNbsp_cons_ne (by decide) rest2
            rw [stripNbsp_cons_not hm2] at hS
            injection hS with h1 _
            exact he h1.symm
          · simp [tagHere, hc, hf]

theorem tagHere_stripEnt :
    ∀ l, tagHere (stripEnt l) = true → tagHere l = true := by
  intro l h
  induction l using stripEnt.induct with
  | case1 rest hemp ih =>
    exfalso
    have heqn : stripEnt ('&' :: '#' :: rest) = '&' :: stripEnt ('#' :: rest) := by
      simp only [stripEnt]
      rw [if_pos hemp]
    rw [heqn] at h
    cases hS : stripEnt ('#' :: rest) with
    | nil => rw [hS] at h; simp [tagHere] at h
    | cons e r2 => rw [hS] at h; simp [tagHere] at h
  | case2 rest hemp r2 hdw ih =>
    exfalso
    have heqn : stripEnt ('&' :: '#' :: rest) = ' ' :: stripEnt r2 := by
      simp only [stripEnt]
      rw [if_neg (by simpa using hemp)]
      split
      · rename_i r3 heq
        rw [hdw] at heq
        injection heq with _ h2
        rw [h2]
      · exfalso
        simp_all
    rw [heqn] at h
    cases hS : stripEnt r2 with
    | nil => rw [hS] at h; simp [tagHere] at h
    | cons e r3 => rw [hS] at h; simp [tagHere] at h
  | case3 rest hemp hne ih =>
    exfalso
    have heqn : stripEnt ('&' :: '#' :: rest) = '&' :: stripEnt ('#' :: rest) := by
      simp only [stripEnt]
      rw [if_neg (by simpa using hemp)]
    rw [heqn] at h
    cases hS : stripEnt ('#' :: rest) with
    | nil => rw [hS] at h; simp [tagHere] at h
    | cons e r2 => rw [hS] at h; simp [tagHere] at h
  | case4 c rest hne ih =>
    have heqn : stripEnt (c :: rest) = c :: stripEnt rest := by
      simp only [stripEnt]
    rw [heqn] at h
    cases hS : stripEnt rest with
    | nil => rw [hS] at h; simp [tagHere] at h
    | cons e r2 =>
      rw [hS] at h
      simp only [tagHere, Bool.and_eq_true, decide_eq_true_eq,
        Bool.not_eq_true', decide_eq_false_iff_not] at h
      obtain ⟨hc, he⟩ := h
      cases rest with
      | nil =>
        rw [show stripEnt [] = [] by simp only [stripEnt]] at hS
        simp at hS
      | cons f rest2 =>
        by_cases hf : f = '>'
        · exfalso
          subst hf
          rw [stripEnt_cons_ne (by decide)] at hS
          injection hS with h1 _
          exact he h1.symm
        · simp [tagHere, hc, hf]
  | case5 =>
    rw [show stripEnt [] = [] by simp only [stripEnt]] at h
    simp [tagHere] at h

theorem tagHere_collapseWs :
    ∀ l, tagHere (collapseWs l) = true → tagHere l = true := by
  intro l h
  induction l using collapseWs.induct with
  | case1 =>
    rw [show collapseWs [] = [] by simp only [collapseWs]] at h
    simp [tagHere] at h
  | case2 c hws =>
    have heqn : collapseWs [c] = [' '] := by
      simp only [collapseWs]
      rw [if_pos hws]
    rw [heqn] at h
    simp [tagHere] at h
  | case3 c hws =>
    have heqn : collapseWs [c] = [c] := by
      simp only [collapseWs]
      rw [if_neg hws]
    rw [heqn] at h
    exact h
  | case4 c d rest hwc hwd ih =>
    exfalso
    have heqn : collapseWs (c :: d :: rest) = collapseWs (d :: rest) := by
      simp only [collapseWs]
      rw [if_pos hwc, if_pos hwd]
    rw [heqn] at h
    obtain ⟨Y, hY⟩ := collapseWs_ws_head rest d hwd
    rw [hY] at h
    cases Y with
    | nil => simp [tagHere] at h
    | cons e r2 => simp [tagHere] at h
  | case5 c d rest hwc hwd ih =>
    exfalso
    have heqn : collapseWs (c :: d :: rest) = ' ' :: collapseWs (d :: rest) := by
      simp only [collapseWs]
      rw [if_pos hwc, if_neg hwd]
    rw [heqn] at h
    cases hS : collapseWs (d :: rest) with
    | nil => rw [hS] at h; simp [tagHere] at h
    | cons e r2 => rw [hS] at h; simp [tagHere] at h
  | case6 c d rest hwc ih =>
    have heqn : collapseWs (c :: d :: rest) = c :: collapseWs (d :: rest) := by
      simp only [collapseWs]
      rw [if_neg hwc]
    rw [heqn] at h
    cases hS : collapseWs (d :: rest) with
    | nil => rw [hS] at h; simp [tagHere] at h
    | cons e r2 =>
      rw [hS] at h
      simp only [tagHere, Bool.and_eq_true, decide_eq_true_eq,
        Bool.not_eq_true', decide_eq_false_iff_not] at h
      obtain ⟨hc, he⟩ := h
      by_cases hd : d = '>'
      · exfalso
        subst hd
        obtain ⟨Y, hY⟩ :=
          collapseWs_cons_not_ws (show jsWs '>' = false by decide) rest
        rw [hY] at hS
        injection hS with h1 _
        exact he h1.symm
      · simp [tagHere, hc, hd]

/-!  ## Establishment: each stage establishes its own normal form -/

theorem stripNbsp_leadPred_cons {ps : List (Char → Bool)}
    (hps : ∀ p ∈ ps, p ' ' = false) (c : Char) (rest : List Char)
    (h : leadPred ps (c :: stripNbsp rest) = true) :
    leadPred ps (c :: rest) = true := by
  match ps, h with
  | [], _ => rfl
  | p :: ps2, h =>
    simp only [leadPred, Bool.and_eq_true] at h ⊢
    exact ⟨h.1, stripNbsp_leadPred rest ps2
      (fun q hq => hps q (List.mem_cons_of_mem _ hq)) h.2⟩

theorem noTagStart_stripTags : ∀ l, noTagStart (stripTags l) = true := by
  intro l
  induction l using stripTags.induct with
  | case1 =>
    simp [stripTags, noTagStart]
  | case2 =>
    simp [stripTags, noTagStart]
  | case3 cs ih =>
    have heqn : stripTags ('<' :: '>' :: cs) = '<' :: stripTags ('>' :: cs) := by
      simp only [stripTags, if_true]
    rw [heqn]
    rw [stripTags_cons_ne (show ¬ ('>' = '<') by decide)]
    have ih2 := ih
    rw [stripTags_cons_ne (show ¬ ('>' = '<') by decide)] at ih2
    simp only [noTagStart, Bool.and_eq_true] at ih2 ⊢
    exact ⟨by simp, ih2⟩
  | case4 c cs hc hdw ih =>
    have heqn : stripTags ('<' :: c :: cs) = ' ' :: stripTags [] := by
      simp only [stripTags]
      rw [if_neg hc]
      split
      · rfl
      · rename_i x r heq
        rw [hdw] at heq
        simp at heq
    rw [heqn, show stripTags [] = [] from by simp [stripTags]]
    decide
  | case5 c cs hc hd r hdw ih =>
    have heqn : stripTags ('<' :: c :: cs) = ' ' :: stripTags r := by
      simp only [stripTags]
      rw [if_neg hc]
      split
      · rename_i heq
        rw [hdw] at heq
        simp at heq
      · rename_i x r2 heq
        rw [hdw] at heq
        injection heq with _ h2
        rw [h2]
    rw [heqn]
    simp only [noTagStart, Bool.and_eq_true]
    exact ⟨by simp, ih⟩
  | case6 c rest hc ih =>
    rw [stripTags_cons_ne hc]
    simp only [noTagStart, Bool.and_eq_true]
    refine ⟨?_, ih⟩
    rw [if_neg hc]

theorem noNbsp_stripNbsp : ∀ l, noNbsp (stripNbsp l) = true := by
  intro l
  induction l using stripNbsp.induct with
  | case1 =>
    simp only [stripNbsp]
    decide
  | case2 c rest hm ih =>
    rw [stripNbsp_cons_match hm]
    simp only [noNbsp, everySuffix, Bool.and_eq_true]
    constructor
    · rw [Bool.not_eq_true']
      exact matchesNbsp_cons_ne (by decide) _
    · have := ih
      simp only [noNbsp] at this
      exact this
  | case3 c rest hm ih =>
    have hm2 : matchesNbsp (c :: rest) = false := by simpa using hm
    rw [stripNbsp_cons_not hm2]
    simp only [noNbsp, everySuffix, Bool.and_eq_true]
    constructor
    · rw [Bool.not_eq_true']
      cases hq : matchesNbsp (c :: stripNbsp rest) with
      | false => rfl
      | true =>
        exfalso
        rw [matchesNbsp_eq_leadPred] at hq
        have h2 := stripNbsp_leadPred_cons nbspPreds_space c rest hq
        rw [← matchesNbsp_eq_leadPred] at h2
        rw [h2] at hm2
        exact Bool.noConfusion hm2
    · have := ih
      simp only [noNbsp] at this
      exact this

theorem wsSpaceOnly_collapseWs : ∀ l, wsSpaceOnly (collapseWs l) = true := by
  intro l
  induction l using collapseWs.induct with
  | case1 =>
    simp only [collapseWs]
    decide
  | case2 c hws =>
    have heqn : collapseWs [c] = [' '] := by
      simp only [collapseWs]
      rw [if_pos hws]
    rw [heqn]
    decide
  | case3 c hws =>
    have heqn : collapseWs [c] = [c] := by
      simp only [collapseWs]
      rw [if_neg hws]
    rw [heqn]
    simp [wsSpaceOnly, (by simpa using hws : jsWs c = false)]
  | case4 c d rest hwc hwd ih =>
    have heqn : collapseWs (c :: d :: rest) = collapseWs (d :: rest) := by
      simp only [collapseWs]
      rw [if_pos hwc, if_pos hwd]
    rw [heqn]
    exact ih
  | case5 c d rest hwc hwd ih =>
    have heqn : collapseWs (c :: d :: rest) = ' ' :: collapseWs (d :: rest) := by
      simp only [collapseWs]
      rw [if_pos hwc, if_neg hwd]
    rw [heqn]
    simp only [wsSpaceOnly, List.all_cons, Bool.and_eq_true]
    constructor
    · decide
    · simpa [wsSpaceOnly] using ih
  | case6 c d rest hwc ih =>
    have heqn : collapseWs (c :: d :: rest) = c :: collapseWs (d :: rest) := by
      simp only [collapseWs]
      rw [if_neg hwc]
    rw [heqn]
    simp only [wsSpaceOnly, List.all_cons, Bool.and_eq_true]
    constructor
    · simp [(by simpa using hwc : jsWs c = false)]
    · simpa [wsSpaceOnly] using ih

theorem wsSingle_collapseWs : ∀ l, wsSingle (collapseWs l) = true := by
  intro l
  induction l using collapseWs.induct with
  | case1 =>
    simp only [collapseWs]
    decide
  | case2 c hws =>
    have heqn : collapseWs [c] = [' '] := by
      simp only [collapseWs]
      rw [if_pos hws]
    rw [heqn]
    decide
  | case3 c hws =>
    have heqn : collapseWs [c] = [c] := by
      simp only [collapseWs]
      rw [if_neg hws]
    rw [heqn]
    simp [wsSingle]
  | case4 c d rest hwc hwd ih =>
    have heqn : collapseWs (c :: d :: rest) = collapseWs (d :: rest) := by
      simp only [collapseWs]
      rw [if_pos hwc, if_pos hwd]
    rw [heqn]
    exact ih
  | case5 c d rest hwc hwd ih =>
    have heqn : collapseWs (c :: d :: rest) = ' ' :: collapseWs (d :: rest) := by
      simp only [collapseWs]
      rw [if_pos hwc, if_neg hwd]
    obtain ⟨Y, hY⟩ := collapseWs_cons_not_ws (by simpa using hwd) rest
    rw [heqn, hY]
    simp only [wsSingle, Bool.and_eq_true]
    constructor
    · simp [(by simpa using hwd : jsWs d = false)]
    · rw [← hY]
      exact ih
  | case6 c d rest hwc ih =>
    have heqn : collapseWs (c :: d :: rest) = c :: collapseWs (d :: rest) := by
      simp only [collapseWs]
      rw [if_neg hwc]
    rw [heqn]
    by_cases hwd : jsWs d
    · obtain ⟨Y, hY⟩ := collapseWs_ws_head rest d hwd
      rw [hY]
      simp only [wsSingle, Bool.and_eq_true]
      constructor
      · simp [(by simpa using hwc : jsWs c = false)]
      · rw [← hY]
        exact ih
    · obtain ⟨Y, hY⟩ := collapseWs_cons_not_ws (by simpa using hwd) rest
      rw [hY]
      simp only [wsSingle, Bool.and_eq_true]
      constructor
      · simp [(by simpa using hwc : jsWs c = false)]
      · rw [← hY]
        exact ih

theorem noEdgeWs_jsTrim : ∀ l, noEdgeWs (jsTrim l) = true := by
  intro l
  simp only [noEdgeWs, Bool.and_eq_true]
  constructor
  · cases hh : jsTrim l with
    | nil => simp
    | cons c r =>
      have hrep := trimEndWs_rep (l.dropWhile jsWs)
      rw [show jsTrim l = trimEndWs (l.dropWhile jsWs) from rfl] at hh
      rw [hh] at hrep
      have hws := dropWhile_head_false l hrep
      simp [hws]
  · have hgl : (jsTrim l).getLast? =
        ((l.dropWhile jsWs).reverse.dropWhile jsWs).head? := by
      rw [show jsTrim l =
        ((l.dropWhile jsWs).reverse.dropWhile jsWs).reverse from rfl]
      exact List.getLast?_reverse _
    rw [hgl]
    cases hh : (l.dropWhile jsWs).reverse.dropWhile jsWs with
    | nil => simp
    | cons c r =>
      have hws := dropWhile_head_false _ hh
      simp [hws]

theorem entWord_no_space {ds : List Char} (hdig : ds.all Char.isDigit = true) :
    ∀ ch ∈ ('#' :: (ds ++ [';'])), ¬ch = ' ' := by
  intro ch hch
  simp only [List.mem_cons, List.mem_append, List.mem_singleton,
    List.not_mem_nil, or_false] at hch
  rcases hch with rfl | hd | rfl
  · decide
  · intro he
    rw [List.all_eq_true] at hdig
    have hd2 := hdig ch hd
    rw [he] at hd2
    exact absurd hd2 (by decide)
  · decide

theorem noEnt_stripEnt : ∀ l, noEnt (stripEnt l) = true := by
  intro l
  induction l using stripEnt.induct with
  | case1 rest hemp ih =>
    have heqn : stripEnt ('&' :: '#' :: rest) = '&' :: stripEnt ('#' :: rest) := by
      simp only [stripEnt]
      rw [if_pos hemp]
    rw [heqn]
    simp only [noEnt, everySuffix, Bool.and_eq_true]
    constructor
    · rw [Bool.not_eq_true']
      cases hq : entHere ('&' :: stripEnt ('#' :: rest)) with
      | false => rfl
      | true =>
        exfalso
        obtain ⟨ds, t, hne2, hdig, heq2⟩ := entHere_shape hq
        injection heq2 with _ h2
        have hlm : leadMatch ('#' :: (ds ++ [';'])) (stripEnt ('#' :: rest)) = true := by
          rw [leadMatch_iff_append]
          exact ⟨t, by rw [h2]; simp⟩
        have h3 := stripEnt_leadMatch (entWord_no_space hdig) ('#' :: rest) hlm
        rw [leadMatch_iff_append] at h3
        obtain ⟨t2, ht2⟩ := h3
        injection ht2 with _ h4
        have h5 : rest = ds ++ ';' :: t2 := by
          rw [h4]
          simp
        have hsub := takeWhile_all_eq ds ';' t2 hdig (by decide)
        rw [h5, hsub.1] at hemp
        cases ds with
        | nil => exact hne2 rfl
        | cons a b => exact Bool.noConfusion hemp
    · have := ih
      simp only [noEnt] at this
      exact this
  | case2 rest hemp r2 hdw ih =>
    have heqn : stripEnt ('&' :: '#' :: rest) = ' ' :: stripEnt r2 := by
      simp only [stripEnt]
      rw [if_neg (by simpa using hemp)]
      split
      · rename_i r3 heq
        rw [hdw] at heq
        injection heq with _ h2
        rw [h2]
      · exfalso
        simp_all
    rw [heqn]
    simp only [noEnt, everySuffix, Bool.and_eq_true]
    constructor
    · rw [Bool.not_eq_true']
      exact entHere_cons_ne (by decide) _
    · have := ih
      simp only [noEnt] at this
      exact this
  | case3 rest hemp hne ih =>
    have heqn : stripEnt ('&' :: '#' :: rest) = '&' :: stripEnt ('#' :: rest) := by
      simp only [stripEnt]
      rw [if_neg (by simpa using hemp)]
    rw [heqn]
    simp only [noEnt, everySuffix, Bool.and_eq_true]
    constructor
    · rw [Bool.not_eq_true']
      cases hq : entHere ('&' :: stripEnt ('#' :: rest)) with
      | false => rfl
      | true =>
        exfalso
        obtain ⟨ds, t, hne2, hdig, heq2⟩ := entHere_shape hq
        injection heq2 with _ h2
        have hlm : leadMatch ('#' :: (ds ++ [';'])) (stripEnt ('#' :: rest)) = true := by
          rw [leadMatch_iff_append]
          exact ⟨t, by rw [h2]; simp⟩
        have h3 := stripEnt_leadMatch (entWord_no_space hdig) ('#' :: rest) hlm
        rw [leadMatch_iff_append] at h3
        obtain ⟨t2, ht2⟩ := h3
        injection ht2 with _ h4
        have h5 : rest = ds ++ ';' :: t2 := by
          rw [h4]
          simp
        have hsub := takeWhile_all_eq ds ';' t2 hdig (by decide)
        refine hne t2 ?_
        rw [h5]
        exact hsub.2
    · have := ih
      simp only [noEnt] at this
      exact this
  | case4 c rest hne ih =>
    have heqn : stripEnt (c :: rest) = c :: stripEnt rest := by
      simp only [stripEnt]
    rw [heqn]
    simp only [noEnt, everySuffix, Bool.and_eq_true]
    constructor
    · rw [Bool.not_eq_true']
      cases hq : entHere (c :: stripEnt rest) with
      | false => rfl
      | true =>
        exfalso
        obtain ⟨ds, t, hne2, hdig, heq2⟩ := entHere_shape hq
        injection heq2 with h1 h2
        have hlm : leadMatch ('#' :: (ds ++ [';'])) (stripEnt rest) = true := by
          rw [leadMatch_iff_append]
          exact ⟨t, by rw [h2]; simp⟩
        have h3 := stripEnt_leadMatch (entWord_no_space hdig) rest hlm
        rw [leadMatch_iff_append] at h3
        obtain ⟨t2, ht2⟩ := h3
        refine hne (ds ++ ';' :: t2) h1 ?_
        rw [ht2]
        simp
    · have := ih
      simp only [noEnt] at this
      exact this
  | case5 =>
    simp only [stripEnt]
    decide

/-!  ## Trim-stage closure for the whitespace predicates -/

theorem mem_of_dropWhile {p : Char → Bool} {x : Char} :
    ∀ l : List Char, x ∈ l.dropWhile p → x ∈ l := by
  intro l
  induction l with
  | nil =>
    intro h
    exact h
  | cons c r ih =>
    intro h
    rw [List.dropWhile_cons] at h
    by_cases hc : p c
    · rw [if_pos hc] at h
      exact List.mem_cons_of_mem _ (ih h)
    · rw [if_neg hc] at h
      exact h

theorem wsSpaceOnly_jsTrim {l : List Char} (h : wsSpaceOnly l = true) :
    wsSpaceOnly (jsTrim l) = true := by
  simp only [wsSpaceOnly, List.all_eq_true] at h ⊢
  intro x hx
  apply h
  simp only [jsTrim, trimEndWs] at hx
  rw [List.mem_reverse] at hx
  have hx2 := mem_of_dropWhile _ hx
  rw [List.mem_reverse] at hx2
  exact mem_of_dropWhile _ hx2

theorem wsSingle_tail {c : Char} {r : List Char}
    (h : wsSingle (c :: r) = true) : wsSingle r = true := by
  match r with
  | [] => rfl
  | d :: r2 =>
    simp only [wsSingle, Bool.and_eq_true] at h
    exact h.2

theorem wsSingle_dropWhile (q : Char → Bool) :
    ∀ l, wsSingle l = true → wsSingle (l.dropWhile q) = true := by
  intro l
  induction l with
  | nil =>
    intro h
    exact h
  | cons c r ih =>
    intro h
    rw [List.dropWhile_cons]
    by_cases hq : q c
    · rw [if_pos hq]
      exact ih (wsSingle_tail h)
    · rw [if_neg hq]
      exact h

theorem wsSingle_append_left :
    ∀ (a b : List Char), wsSingle (a ++ b) = true → wsSingle a = true := by
  intro a
  induction a with
  | nil =>
    intro b h
    rfl
  | cons c a2 ih =>
    intro b h
    cases a2 with
    | nil => simp [wsSingle]
    | cons d a3 =>
      simp only [List.cons_append, wsSingle, Bool.and_eq_true] at h ⊢
      refine ⟨h.1, ?_⟩
      exact ih b (show wsSingle ((d :: a3) ++ b) = true from by
        simpa using h.2)

theorem wsSingle_jsTrim {l : List Char} (h : wsSingle l = true) :
    wsSingle (jsTrim l) = true := by
  have h1 := wsSingle_dropWhile jsWs l h
  have hrep := trimEndWs_rep (l.dropWhile jsWs)
  simp only [jsTrim]
  have h2 : wsSingle (trimEndWs (l.dropWhile jsWs) ++
      ((l.dropWhile jsWs).reverse.takeWhile jsWs).reverse) = true := by
    rw [← hrep]
    exact h1
  exact wsSingle_append_left _ _ h2

/-!  ## The normalizer output is in normal form -/

theorem cleanText_normal : ∀ l, cleanNormal (cleanText l) = true := by
  intro l
  have s1T : everySuffix (fun s => !tagHere s) (stripTags l) = true := by
    rw [← noTagStart_eq]
    exact noTagStart_stripTags l
  have s1N := stripNbsp_everySuffix tagHere_stripNbsp (stripTags l) s1T
  have s2N : everySuffix (fun s => !matchesNbsp s)
      (stripNbsp (stripTags l)) = true := by
    have := noNbsp_stripNbsp (stripTags l)
    simp only [noNbsp] at this
    exact this
  have s1E := stripEnt_everySuffix tagHere_stripEnt _ s1N
  have s2E := stripEnt_everySuffix matchesNbsp_stripEnt _ s2N
  have s3E : everySuffix (fun s => !entHere s)
      (stripEnt (stripNbsp (stripTags l))) = true := by
    have := noEnt_stripEnt (stripNbsp (stripTags l))
    simp only [noEnt] at this
    exact this
  have s1C := collapseWs_everySuffix tagHere_collapseWs _ s1E
  have s2C := collapseWs_everySuffix matchesNbsp_collapseWs _ s2E
  have s3C := collapseWs_everySuffix entHere_collapseWs _ s3E
  have e4a := wsSpaceOnly_collapseWs (stripEnt (stripNbsp (stripTags l)))
  have e4b := wsSingle_collapseWs (stripEnt (stripNbsp (stripTags l)))
  have s1J := everySuffix_jsTrim (fun s b hs => tagHere_append hs) _ s1C
  have s2J := everySuffix_jsTrim (fun s b hs => matchesNbsp_append hs) _ s2C
  have s3J := everySuffix_jsTrim (fun s b hs => entHere_append hs) _ s3C
  have w1J := wsSpaceOnly_jsTrim e4a
  have w2J := wsSingle_jsTrim e4b
  have e5 := noEdgeWs_jsTrim (collapseWs (stripEnt (stripNbsp (stripTags l))))
  simp only [cleanText, cleanNormal, Bool.and_eq_true]
  refine ⟨⟨⟨⟨⟨?_, ?_⟩, ?_⟩, ?_⟩, ?_⟩, ?_⟩
  · rw [noTagStart_eq]
    exact s1J
  · simp only [noNbsp]
    exact s2J
  · simp only [noEnt]
    exact s3J
  · exact w1J
  · exact w2J
  · exact e5

/-- C8: the text normalizer is idempotent: cleaning already cleaned text
changes nothing, so cleanText (cleanText x) = cleanText x for every
input. -/
theorem C8_cleanText_idempotent :
    ∀ x : List Char, cleanText (cleanText x) = cleanText x :=
  fun x => cleanNormal_fix (cleanText x) (cleanText_normal x)

end OTPilot
